import Mathlib

set_option maxHeartbeats 1000000

/-!
Shallow embedding of the dependency-cascade core: the glob-based path
matching of nodes (src/types/node.rs) and the dependency graph engine
(src/types/graph.rs), together with theorems about the spec claims.
Paths are modelled as strings with Unix separators; the external glob
crate (Pattern::new / matches_path under the default MatchOptions) and
the petgraph graph container and toposort are modelled faithfully from
their documented behaviour and sources, since they decide the observable
behaviour of the repository code.
-/

/-- Character specifiers inside a glob bracket class, as in the glob crate. -/
inductive CharSpecifier where
  | singleChar (c : Char)
  | charRange (lo hi : Char)
deriving DecidableEq, Repr

/-- Tokens of a compiled glob pattern, as in the glob crate. -/
inductive PatternToken where
  | char (c : Char)
  | anyChar
  | anySequence
  | anyRecursiveSequence
  | anyWithin (cs : List CharSpecifier)
  | anyExcept (cs : List CharSpecifier)
deriving DecidableEq, Repr

/-- Parsing of the contents of a bracket class into character specifiers
(glob crate, parse_char_specifiers). -/
def parseCharSpecifiers : List Char → List CharSpecifier
  | a :: '-' :: b :: rest => .charRange a b :: parseCharSpecifiers rest
  | a :: rest => .singleChar a :: parseCharSpecifiers rest
  | [] => []

/-- Length of a dropWhile result, for termination of the compiler below. -/
theorem len_dropWhile_le (p : Char → Bool) (l : List Char) :
    (l.dropWhile p).length ≤ l.length := by
  induction l with
  | nil => simp [List.dropWhile]
  | cons a l ih =>
    by_cases h : p a
    · simp [List.dropWhile, h]; omega
    · simp [List.dropWhile, h]

/-- Test for pushing a recursive-wildcard token: consecutive recursive
wildcards collapse exactly when the token list has length above one and
already ends with one (glob crate, Pattern::new). -/
def pushRecursive (tokens : List PatternToken) : List PatternToken :=
  if tokens.length > 1 ∧ tokens.getLast? = some .anyRecursiveSequence then tokens
  else tokens ++ [.anyRecursiveSequence]

/-- Compilation of a glob pattern, following glob::Pattern::new. The
second argument is the character preceding the current position, if any;
the third is the token accumulator. Returns none exactly where the Rust
implementation returns a PatternError (too many wildcards, a recursive
wildcard that is not a whole path component, or an unclosed bracket). -/
def compileGlobAux : List Char → Option Char → List PatternToken → Option (List PatternToken)
  | [], _, tokens => some tokens
  | '?' :: rest, _, tokens => compileGlobAux rest (some '?') (tokens ++ [.anyChar])
  | '*' :: '*' :: '*' :: _, _, _ => none
  | '*' :: '*' :: after, prev, tokens =>
    if prev = none ∨ prev = some '/' then
      match after with
      | '/' :: after2 => compileGlobAux after2 (some '/') (pushRecursive tokens)
      | [] => some (pushRecursive tokens)
      | _ :: _ => none
    else none
  | '*' :: rest, _, tokens => compileGlobAux rest (some '*') (tokens ++ [.anySequence])
  | '[' :: '!' :: c1 :: c2 :: rest3, _, tokens =>
    match h : (c2 :: rest3).dropWhile (· ≠ ']') with
    | ']' :: rem =>
      compileGlobAux rem (some ']')
        (tokens ++ [.anyExcept (parseCharSpecifiers (c1 :: (c2 :: rest3).takeWhile (· ≠ ']')))])
    | _ => none
  | '[' :: c1 :: c2 :: rest3, _, tokens =>
    if c1 = '!' then none
    else
      match h : (c2 :: rest3).dropWhile (· ≠ ']') with
      | ']' :: rem =>
        compileGlobAux rem (some ']')
          (tokens ++ [.anyWithin (parseCharSpecifiers (c1 :: (c2 :: rest3).takeWhile (· ≠ ']')))])
      | _ => none
  | '[' :: _, _, _ => none
  | c :: rest, _, tokens => compileGlobAux rest (some c) (tokens ++ [.char c])
termination_by l _ _ => l.length
decreasing_by
  all_goals simp_wf
  all_goals try omega
  all_goals
    (first
      | (have hle := len_dropWhile_le (fun c => decide (c ≠ ']')) (c2 :: rest3)
         have hlen : (']' :: rem).length ≤ (c2 :: rest3).length := by rw [← h]; exact hle
         simp at hlen; omega))

/-- Compiled glob pattern. -/
structure GlobPattern where
  tokens : List PatternToken
deriving DecidableEq, Repr

/-- Pattern::new of the glob crate: none models a PatternError. -/
def GlobPattern.new (s : String) : Option GlobPattern :=
  (compileGlobAux s.data none []).map GlobPattern.mk

/-- Outcome of the token matcher, as in the glob crate. -/
inductive MatchResult where
  | matched
  | subPatternDoesntMatch
  | entirePatternDoesntMatch
deriving DecidableEq, Repr

/-- Membership of a character in a list of bracket-class specifiers under
case-sensitive matching (glob crate, in_char_specifiers). -/
def inCharSpecifiers (cs : List CharSpecifier) (c : Char) : Bool :=
  cs.any fun s => match s with
    | .singleChar sc => sc == c
    | .charRange lo hi => decide (lo ≤ c) && decide (c ≤ hi)

/-- Match of one non-wildcard token against one character under the default
MatchOptions (case sensitive, separators and leading dots not literal). -/
def tokMatchesChar : PatternToken → Char → Bool
  | .char c2, c => c == c2
  | .anyChar, _ => true
  | .anyWithin cs, c => inCharSpecifiers cs c
  | .anyExcept cs, c => !(inCharSpecifiers cs c)
  | _, _ => false

/-- Result of matching the remaining tokens once the candidate string is
exhausted: only (possibly repeated) sequence wildcards can still succeed. -/
def matchesEmpty : List PatternToken → MatchResult
  | [] => .matched
  | .anySequence :: rest => matchesEmpty rest
  | .anyRecursiveSequence :: rest => matchesEmpty rest
  | _ :: _ => .entirePatternDoesntMatch

mutual

/-- Token matcher following glob::Pattern::matches_from under the default
MatchOptions. The Bool records whether the previous consumed character was
a path separator. -/
def matchesFrom : Bool → List Char → List PatternToken → MatchResult
  | _, [], [] => .matched
  | _, _ :: _, [] => .subPatternDoesntMatch
  | followsSep, file, .anySequence :: rest =>
    match matchesFrom followsSep file rest with
    | .subPatternDoesntMatch => seqLoop .anySequence followsSep file rest
    | m => m
  | followsSep, file, .anyRecursiveSequence :: rest =>
    match matchesFrom followsSep file rest with
    | .subPatternDoesntMatch => seqLoop .anyRecursiveSequence followsSep file rest
    | m => m
  | _, [], _ :: _ => .entirePatternDoesntMatch
  | _, c :: fileRest, tok :: rest =>
    if tokMatchesChar tok c then matchesFrom (c == '/') fileRest rest
    else .subPatternDoesntMatch
termination_by _ file toks => (file.length, toks.length, 1)

/-- Backtracking loop of a sequence wildcard: consume one character at a
time, retrying the rest of the pattern (at separators only, for the
recursive wildcard); once the candidate is exhausted the remaining tokens
are matched against the empty string. -/
def seqLoop : PatternToken → Bool → List Char → List PatternToken → MatchResult
  | _, _, [], rest => matchesEmpty rest
  | tok, _, c :: fileRest, rest =>
    match tok with
    | .anyRecursiveSequence =>
      if c == '/' then
        match matchesFrom true fileRest rest with
        | .subPatternDoesntMatch => seqLoop tok true fileRest rest
        | m => m
      else seqLoop tok false fileRest rest
    | _ =>
      match matchesFrom (c == '/') fileRest rest with
      | .subPatternDoesntMatch => seqLoop tok (c == '/') fileRest rest
      | m => m
termination_by _ _ file rest => (file.length, rest.length, 0)

end

/-- Pattern::matches of the glob crate (Pattern::matches_path goes through
the same entry point on the path rendered as a string). -/
def GlobPattern.matches (p : GlobPattern) (s : String) : Bool :=
  match matchesFrom true s.data p.tokens with
  | .matched => true
  | _ => false

/-- Join of a base path and a pattern, following PathBuf::join on Unix: an
absolute right-hand side replaces the base, an empty base disappears. -/
def pathJoin (base p : String) : String :=
  if p.startsWith "/" then p
  else if base = "" then p
  else if base.endsWith "/" then base ++ p
  else base ++ "/" ++ p

/-- Node of the dependency graph (src/types/node.rs). The metadata payload
is opaque to the core and is modelled as an optional string. -/
structure Node where
  name : String
  metadata : Option String
  path : String
  included_paths : List String
  excluded_paths : List String
  dependencies : List String
deriving DecidableEq, Repr

/-- Errors of node creation that the core model can produce. -/
inductive NodeCreationError where
  | noIncludedPaths (name : String)
deriving DecidableEq, Repr

/-- Node::new: fails when there are no included paths. -/
def Node.new (name : String) (path : String) (included_paths : List String)
    (excluded_paths : List String) (dependencies : List String)
    (metadata : Option String) : Except NodeCreationError Node :=
  if included_paths.isEmpty then .error (.noIncludedPaths name)
  else .ok ⟨name, metadata, path, included_paths, excluded_paths, dependencies⟩

/-- Matching of one include/exclude entry against a candidate path: the
entry is joined onto the node base path, compiled, and matched; a
compilation failure counts as a non-match, mirroring
glob::Pattern::new(..).map(|p| p.matches_path(path)).unwrap_or(false). -/
def patternMatchesPath (base pat candidate : String) : Bool :=
  match GlobPattern.new (pathJoin base pat) with
  | some p => p.matches candidate
  | none => false

/-- Node::includes_path (src/types/node.rs, lines 122-145). -/
def Node.includes_path (nd : Node) (p : String) : Bool :=
  let matchesInclude := nd.included_paths.any fun pat => patternMatchesPath nd.path pat p
  let matchesExclude := nd.excluded_paths.any fun pat => patternMatchesPath nd.path pat p
  matchesInclude && !matchesExclude

/-- Errors of DependencyGraph::new (src/types/graph.rs). The missing
dependency error carries the dependency name, the referencing node name,
and the comma-joined listing of the known node names. -/
inductive DependencyGraphCreationError where
  | duplicateNodeName (name : String)
  | missingDependency (dep : String) (node : String) (existing : String)
  | circularDependency (path : String) (first : String)
deriving DecidableEq, Repr

/-- DependencyGraph (src/types/graph.rs): a petgraph directed graph,
modelled by the vertex list in index order and the edge list (dependency
index, dependent index) in insertion order, plus the name index map in
insertion order. -/
structure DependencyGraph where
  nodes : List Node
  edges : List (Nat × Nat)
  nameToIndex : List (String × Nat)
deriving DecidableEq, Repr

/-- Outgoing neighbors of a vertex. petgraph iterates the adjacency list
of a vertex from the most recently inserted edge backwards, so the list
of targets is reversed relative to edge insertion order. -/
def DependencyGraph.outNeighbors (g : DependencyGraph) (v : Nat) : List Nat :=
  ((g.edges.filter (fun e => e.1 = v)).map (·.2)).reverse

/-- Incoming neighbors of a vertex, most recently inserted edge first. -/
def DependencyGraph.inNeighbors (g : DependencyGraph) (v : Nat) : List Nat :=
  ((g.edges.filter (fun e => e.2 = v)).map (·.1)).reverse

/-- Lookup in the name index (HashMap::get; keys are unique whenever the
map is built, so the first hit is the only hit). -/
def lookupName (m : List (String × Nat)) (s : String) : Option Nat :=
  (m.find? (fun p => p.1 = s)).map (·.2)

/-- First pass of DependencyGraph::new: scan the names into a seen-set and
report the first name whose insertion fails. -/
def firstDuplicateAux (seen : List String) : List String → Option String
  | [] => none
  | n :: rest => if n ∈ seen then some n else firstDuplicateAux (n :: seen) rest

/-- First duplicated node name, if any. -/
def firstDuplicate (names : List String) : Option String := firstDuplicateAux [] names

/-- List elements paired with their indices, starting at the given index. -/
def withIdx {α : Type} : Nat → List α → List (Nat × α)
  | _, [] => []
  | i, a :: rest => (i, a) :: withIdx (i + 1) rest

/-- Name index built by the second pass of DependencyGraph::new: node
names mapped to their vertex indices, in insertion order. -/
def ntiOf (nodes : List Node) : List (String × Nat) :=
  (withIdx 0 nodes).map (fun p => (p.2.name, p.1))

/-- Edges contributed by the dependency list of one node (third pass of
DependencyGraph::new): each dependency name is looked up and yields the
edge dependency-index to node-index; the first unresolved name fails with
MissingDependency. -/
def edgesForNode (nti : List (String × Nat)) (allNames : List String) (idx : Nat)
    (refName : String) : List String → Except DependencyGraphCreationError (List (Nat × Nat))
  | [] => .ok []
  | d :: ds =>
    match lookupName nti d with
    | some di =>
      match edgesForNode nti allNames idx refName ds with
      | .ok es => .ok ((di, idx) :: es)
      | .error e => .error e
    | none => .error (.missingDependency d refName (String.intercalate ", " allNames))

/-- Edge insertion over all nodes in vertex index order. -/
def buildEdges (nti : List (String × Nat)) (allNames : List String) :
    List (Nat × Node) → Except DependencyGraphCreationError (List (Nat × Nat))
  | [] => .ok []
  | (idx, nd) :: rest =>
    match edgesForNode nti allNames idx nd.name nd.dependencies with
    | .error e => .error e
    | .ok es =>
      match buildEdges nti allNames rest with
      | .error e => .error e
      | .ok es2 => .ok (es ++ es2)

/-- One neighbor step of the traversal loops of get_dependencies and
get_dependents: a neighbor not yet in the visited set is recorded and
pushed onto the stack. -/
def dfsStep (st : Finset Nat × List Nat × List Nat) (nb : Nat) :
    Finset Nat × List Nat × List Nat :=
  if nb ∈ st.1 then st else (insert nb st.1, nb :: st.2.1, st.2.2 ++ [nb])

/-- Stack-based reachability walk of get_dependencies and get_dependents,
parameterised by the neighbor function. The fuel only bounds the number
of loop iterations; none signals exhaustion and is never reached from the
entry points on well-formed graphs. -/
def dfsAux (adj : Nat → List Nat) : Nat → List Nat → Finset Nat → List Nat →
    Option (List Nat × Finset Nat)
  | 0, _, _, _ => none
  | _ + 1, [], visited, results => some (results, visited)
  | fuel + 1, idx :: rest, visited, results =>
    let st := (adj idx).foldl dfsStep (visited, rest, results)
    dfsAux adj fuel st.2.1 st.1 st.2.2

/-- DependencyGraph::get_dependents: forward reachability from the named
vertex; an unknown name yields the empty list. -/
def DependencyGraph.get_dependents (g : DependencyGraph) (node_name : String) : List Node :=
  match lookupName g.nameToIndex node_name with
  | none => []
  | some s =>
    match dfsAux g.outNeighbors (2 * g.nodes.length + 2) [s] ∅ [] with
    | some (res, _) => res.filterMap (fun i => g.nodes[i]?)
    | none => []

/-- DependencyGraph::get_dependencies: reachability along reversed edges. -/
def DependencyGraph.get_dependencies (g : DependencyGraph) (node_name : String) : List Node :=
  match lookupName g.nameToIndex node_name with
  | none => []
  | some s =>
    match dfsAux g.inNeighbors (2 * g.nodes.length + 2) [s] ∅ [] with
    | some (res, _) => res.filterMap (fun i => g.nodes[i]?)
    | none => []

/-- DependencyGraph::get_node. -/
def DependencyGraph.get_node (g : DependencyGraph) (node_name : String) : Option Node :=
  (lookupName g.nameToIndex node_name).bind (fun i => g.nodes[i]?)

/-- DependencyGraph::get_all_nodes: the vertices in index order. -/
def DependencyGraph.get_all_nodes (g : DependencyGraph) : List Node := g.nodes

/-- DependencyGraph::get_affected_nodes: every node owning at least one
changed path contributes its own name and the names of its dependents to
a hash set of names, modelled as a Finset. -/
def DependencyGraph.get_affected_nodes (g : DependencyGraph) (changed_files : List String) :
    Finset String :=
  g.get_all_nodes.foldl
    (fun acc nd =>
      if changed_files.any (fun p => nd.includes_path p) then
        ((g.get_dependents nd.name).map (·.name)).foldl (fun a x => insert x a)
          (insert nd.name acc)
      else acc)
    ∅

/-- Inner loop of petgraph::algo::toposort: a depth-first walk with a
discovered set and a finished set. The top of the stack is visited on
first sight (pushing its undiscovered successors, failing on a self
loop) and popped later, when it is finished after checking that all its
successors are already finished. The fuel bounds iterations; none is
never returned when called with the fuel used below. -/
def topoInner (g : DependencyGraph) : Nat → List Nat → Finset Nat → Finset Nat → List Nat →
    Option (Except Nat (Finset Nat × Finset Nat × List Nat))
  | 0, _, _, _, _ => none
  | _ + 1, [], disc, fin, fstack => some (.ok (disc, fin, fstack))
  | fuel + 1, nx :: rest, disc, fin, fstack =>
    if nx ∈ disc then
      if nx ∈ fin then topoInner g fuel rest disc fin fstack
      else
        if (g.outNeighbors nx).all (fun s => s ∈ insert nx fin) then
          topoInner g fuel rest disc (insert nx fin) (nx :: fstack)
        else some (.error nx)
    else
      if (g.outNeighbors nx).any (fun s => s = nx) then some (.error nx)
      else
        let disc2 := insert nx disc
        topoInner g fuel
          (((g.outNeighbors nx).filter (fun s => s ∉ disc2)).reverse ++ nx :: rest)
          disc2 fin fstack

/-- Fuel that always suffices for one topoInner run started on a singleton
stack (proved below). -/
def topoFuel (g : DependencyGraph) : Nat := g.nodes.length * (g.edges.length + 1) + 2

/-- Outer loop of petgraph::algo::toposort over all vertex identifiers. -/
def topoOuter (g : DependencyGraph) : List Nat → Finset Nat → Finset Nat → List Nat →
    Option (Except Nat (List Nat))
  | [], _, _, fstack => some (.ok fstack)
  | i :: rest, disc, fin, fstack =>
    if i ∈ disc then topoOuter g rest disc fin fstack
    else
      match topoInner g (topoFuel g) [i] disc fin fstack with
      | none => none
      | some (.error v) => some (.error v)
      | some (.ok (disc2, fin2, fstack2)) => topoOuter g rest disc2 fin2 fstack2

/-- petgraph::algo::toposort: an error carries a vertex at which cycle
detection fired. The returned order (which DependencyGraph::new ignores)
lists the vertices in reverse finishing order. -/
def toposort (g : DependencyGraph) : Option (Except Nat (List Nat)) :=
  topoOuter g (List.range g.nodes.length) ∅ ∅ []

/-- Cycle walk of DependencyGraph::new: from the blocking vertex follow
the first outgoing neighbor, recording the path, until either a vertex
repeats (the recorded path is trimmed to start at the repeated vertex and
the Bool is true) or a vertex without outgoing edges is reached (the Bool
is false). -/
def cycleWalk (g : DependencyGraph) : Nat → Nat → Finset Nat → List Nat → List Nat × Bool
  | 0, _, _, path => (path, false)
  | fuel + 1, current, visited, path =>
    match (g.outNeighbors current).head? with
    | none => (path, false)
    | some nxt =>
      if nxt ∈ visited then (path.dropWhile (fun x => x ≠ nxt), true)
      else cycleWalk g fuel nxt (insert nxt visited) (path ++ [nxt])

/-- Cycle walk started at the blocking vertex, as in DependencyGraph::new. -/
def cycleWalkFrom (g : DependencyGraph) (v : Nat) : List Nat × Bool :=
  cycleWalk g (g.nodes.length + 1) v {v} [v]

/-- Name of the vertex at an index (graph[idx].name; indices produced by
the engine are always in bounds). -/
def DependencyGraph.nodeNameAt (g : DependencyGraph) (i : Nat) : String :=
  ((g.nodes[i]?).map (·.name)).getD ""

/-- The CircularDependency error constructed from the walk at the
blocking vertex: the names joined by arrows, and the first name again as
the closing vertex of the cycle. -/
def cycleErrorOf (g : DependencyGraph) (v : Nat) : DependencyGraphCreationError :=
  let names := (cycleWalkFrom g v).1.map g.nodeNameAt
  .circularDependency (String.intercalate " -> " names) (names.headD "")

/-- DependencyGraph::new (src/types/graph.rs, lines 41-113). -/
def DependencyGraph.new (nodes : List Node) (allow_cyclical : Bool) :
    Except DependencyGraphCreationError DependencyGraph :=
  match firstDuplicate (nodes.map (·.name)) with
  | some n => .error (.duplicateNodeName n)
  | none =>
    let nti := ntiOf nodes
    match buildEdges nti (nodes.map (·.name)) (withIdx 0 nodes) with
    | .error e => .error e
    | .ok edges =>
      let g : DependencyGraph := ⟨nodes, edges, nti⟩
      if allow_cyclical then .ok g
      else
        match toposort g with
        | some (.error v) => .error (cycleErrorOf g v)
        | _ => .ok g

/-- Edge relation of a built graph. -/
def edgeMem (g : DependencyGraph) (u v : Nat) : Prop := (u, v) ∈ g.edges

/-- A graph is cyclic when some vertex reaches itself through at least one
edge. -/
def Cyclic (g : DependencyGraph) : Prop := ∃ v, Relation.TransGen (edgeMem g) v v

/-- Dependency relation declared by the input node list: vertex i is a
dependency of vertex j when the name of node i appears in the declared
dependencies of node j. This matches the edge set the engine builds. -/
def inputDepB (nodes : List Node) (i j : Nat) : Bool :=
  match nodes[i]?, nodes[j]? with
  | some ndi, some ndj => ndi.name ∈ ndj.dependencies
  | _, _ => false

/-! Basic lemmas about the graph container. -/

theorem mem_outNeighbors {g : DependencyGraph} {u v : Nat} :
    v ∈ g.outNeighbors u ↔ (u, v) ∈ g.edges := by
  unfold DependencyGraph.outNeighbors
  rw [List.mem_reverse, List.mem_map]
  constructor
  · rintro ⟨⟨a, b⟩, hm, rfl⟩
    rw [List.mem_filter] at hm
    have ha : a = u := by simpa using hm.2
    subst ha; exact hm.1
  · intro h
    exact ⟨(u, v), List.mem_filter.mpr ⟨h, by simp⟩, rfl⟩

theorem mem_inNeighbors {g : DependencyGraph} {u v : Nat} :
    u ∈ g.inNeighbors v ↔ (u, v) ∈ g.edges := by
  unfold DependencyGraph.inNeighbors
  rw [List.mem_reverse, List.mem_map]
  constructor
  · rintro ⟨⟨a, b⟩, hm, rfl⟩
    rw [List.mem_filter] at hm
    have hb : b = v := by simpa using hm.2
    subst hb; exact hm.1
  · intro h
    exact ⟨(u, v), List.mem_filter.mpr ⟨h, by simp⟩, rfl⟩

theorem mem_withIdx {α : Type} {l : List α} :
    ∀ {k : Nat} {p : Nat × α}, p ∈ withIdx k l ↔
      ∃ j, p.1 = k + j ∧ l[j]? = some p.2 := by
  induction l with
  | nil => intro k p; simp [withIdx]
  | cons a rest ih =>
    intro k p
    simp only [withIdx, List.mem_cons, ih]
    constructor
    · rintro (rfl | ⟨j, hj, hget⟩)
      · exact ⟨0, by simp⟩
      · exact ⟨j + 1, by omega, by simpa using hget⟩
    · rintro ⟨j, hj, hget⟩
      cases j with
      | zero =>
        left
        simp only [List.getElem?_cons_zero, Option.some_inj] at hget
        obtain ⟨p1, p2⟩ := p
        simp at hget hj
        simp [hj, hget]
      | succ j =>
        right
        exact ⟨j, by omega, by simpa using hget⟩

/-- Lookup in the constructed name index: a none result means no node
carries the name. -/
theorem lookupName_ntiOf_eq_none {nodes : List Node} {s : String} :
    lookupName (ntiOf nodes) s = none ↔ ∀ nd ∈ nodes, nd.name ≠ s := by
  have main : ∀ (l : List Node) (k : Nat),
      lookupName ((withIdx k l).map (fun p => (p.2.name, p.1))) s = none ↔
        ∀ nd ∈ l, nd.name ≠ s := by
    intro l
    induction l with
    | nil => intro k; simp [lookupName, withIdx]
    | cons a rest ih =>
      intro k
      by_cases h : a.name = s
      · simp [lookupName, withIdx, List.find?_cons, h]
      · simp only [withIdx, List.map_cons, lookupName, List.find?_cons]
        have hfalse : (decide (a.name = s)) = false := by simp [h]
        simp only [hfalse]
        rw [show ∀ o : Option (String × Nat), o.map (·.2) = none ↔ o = none by
          intro o; cases o <;> simp] at *
        constructor
        · intro hn nd hnd
          rcases List.mem_cons.mp hnd with rfl | hmem
          · exact h
          · have := (ih (k + 1)).mp (by simpa [lookupName] using hn)
            exact this nd hmem
        · intro hall
          have := (ih (k + 1)).mpr (fun nd hnd => hall nd (List.mem_cons_of_mem _ hnd))
          simpa [lookupName] using this
  exact main nodes 0


theorem mem_of_getElem?_some {α : Type} :
    ∀ {l : List α} {j : Nat} {a : α}, l[j]? = some a → a ∈ l := by
  intro l
  induction l with
  | nil => intro j a h; simp at h
  | cons x rest ih =>
    intro j a h
    cases j with
    | zero => simp at h; simp [h]
    | succ j => exact List.mem_cons_of_mem _ (ih (by simpa using h))

/-- Lookup in the constructed name index under unique names: a some result
is exactly an index carrying a node of the looked-up name. -/
theorem lookupName_withIdx_eq_some {s : String} :
    ∀ (l : List Node) (k : Nat), (l.map (·.name)).Nodup →
      ∀ {i : Nat},
      (lookupName ((withIdx k l).map (fun p => (p.2.name, p.1))) s = some i ↔
        ∃ j nd, i = k + j ∧ l[j]? = some nd ∧ nd.name = s) := by
  intro l
  induction l with
  | nil => intro k _ i; simp [lookupName, withIdx]
  | cons a rest ih =>
    intro k hnd i
    have hnotin : a.name ∉ rest.map (·.name) := by
      simp only [List.map_cons, List.nodup_cons] at hnd; exact hnd.1
    have hnd2 : (rest.map (·.name)).Nodup := by
      simp only [List.map_cons, List.nodup_cons] at hnd; exact hnd.2
    by_cases h : a.name = s
    · rw [show (withIdx k (a :: rest)).map (fun p => (p.2.name, p.1)) =
          (a.name, k) :: (withIdx (k + 1) rest).map (fun p => (p.2.name, p.1)) by
            simp [withIdx]]
      rw [show lookupName ((a.name, k) :: (withIdx (k + 1) rest).map (fun p => (p.2.name, p.1))) s
            = some k by simp [lookupName, List.find?_cons_of_pos, h]]
      constructor
      · intro hi
        simp only [Option.some_inj] at hi
        exact ⟨0, a, by omega, by simp, h⟩
      · rintro ⟨j, nd, rfl, hget, hname⟩
        cases j with
        | zero => simp
        | succ j =>
          exfalso
          apply hnotin
          rw [List.mem_map]
          exact ⟨nd, mem_of_getElem?_some (by simpa using hget), by rw [hname, h]⟩
    · rw [show (withIdx k (a :: rest)).map (fun p => (p.2.name, p.1)) =
          (a.name, k) :: (withIdx (k + 1) rest).map (fun p => (p.2.name, p.1)) by
            simp [withIdx]]
      rw [show lookupName ((a.name, k) :: (withIdx (k + 1) rest).map (fun p => (p.2.name, p.1))) s
            = lookupName ((withIdx (k + 1) rest).map (fun p => (p.2.name, p.1))) s by
            simp [lookupName, List.find?_cons_of_neg, h]]
      rw [ih (k + 1) hnd2]
      constructor
      · rintro ⟨j, nd, rfl, hget, hname⟩
        exact ⟨j + 1, nd, by omega, by simpa using hget, hname⟩
      · rintro ⟨j, nd, rfl, hget, hname⟩
        cases j with
        | zero =>
          exfalso
          simp only [List.getElem?_cons_zero, Option.some_inj] at hget
          rw [← hget] at hname
          exact h hname
        | succ j => exact ⟨j, nd, by omega, by simpa using hget, hname⟩

theorem lookupName_ntiOf_eq_some {nodes : List Node}
    (hnd : (nodes.map (·.name)).Nodup) {s : String} {i : Nat} :
    lookupName (ntiOf nodes) s = some i ↔
      ∃ nd, nodes[i]? = some nd ∧ nd.name = s := by
  rw [ntiOf, lookupName_withIdx_eq_some nodes 0 hnd]
  constructor
  · rintro ⟨j, nd, rfl, hget, hname⟩; exact ⟨nd, by simpa using hget, hname⟩
  · rintro ⟨nd, hget, hname⟩; exact ⟨i, nd, by omega, hget, hname⟩

/-- The duplicate scan succeeds exactly on lists of pairwise distinct
names. -/
theorem firstDuplicate_eq_none {names : List String} :
    firstDuplicate names = none ↔ names.Nodup := by
  have main : ∀ (l : List String) (seen : List String),
      firstDuplicateAux seen l = none ↔ l.Nodup ∧ ∀ x ∈ l, x ∉ seen := by
    intro l
    induction l with
    | nil => intro seen; simp [firstDuplicateAux]
    | cons a rest ih =>
      intro seen
      by_cases h : a ∈ seen
      · simp [firstDuplicateAux, h]
      · rw [show firstDuplicateAux seen (a :: rest) = firstDuplicateAux (a :: seen) rest by
            simp [firstDuplicateAux, h]]
        rw [ih (a :: seen)]
        constructor
        · rintro ⟨hnodup, hall⟩
          have hamem : a ∉ rest := fun hmem => (hall a hmem) (List.mem_cons_self a seen)
          refine ⟨List.nodup_cons.mpr ⟨hamem, hnodup⟩, ?_⟩
          intro x hx
          rcases List.mem_cons.mp hx with rfl | hx2
          · exact h
          · intro hxs
            exact (hall x hx2) (List.mem_cons_of_mem _ hxs)
        · rintro ⟨hnodup, hall⟩
          obtain ⟨hamem, hnodup2⟩ := List.nodup_cons.mp hnodup
          refine ⟨hnodup2, ?_⟩
          intro x hx hxs
          rcases List.mem_cons.mp hxs with rfl | hx2
          · exact hamem hx
          · exact (hall x (List.mem_cons_of_mem _ hx)) hx2
  rw [firstDuplicate, main names []]
  simp

/-! Characterization of the edge-building pass. -/

theorem edgesForNode_ok_iff {nti : List (String × Nat)} {allNames : List String}
    {idx : Nat} {r : String} {deps : List String} :
    (∃ es, edgesForNode nti allNames idx r deps = .ok es) ↔
      ∀ d ∈ deps, lookupName nti d ≠ none := by
  induction deps with
  | nil =>
    constructor
    · intro _ d hd; exact absurd hd (List.not_mem_nil d)
    · intro _; exact ⟨[], rfl⟩
  | cons d ds ih =>
    simp only [edgesForNode]
    cases hl : lookupName nti d with
    | none =>
      constructor
      · rintro ⟨es, hes⟩; cases hes
      · intro hall; exact absurd hl (hall d (List.mem_cons_self d ds))
    | some di =>
      cases hrec : edgesForNode nti allNames idx r ds with
      | ok es =>
        constructor
        · intro _ d2 hd2
          rcases List.mem_cons.mp hd2 with rfl | hmem
          · rw [hl]; simp
          · exact (ih.mp ⟨es, hrec⟩) d2 hmem
        · intro _; exact ⟨(di, idx) :: es, rfl⟩
      | error e =>
        constructor
        · rintro ⟨es, hes⟩; cases hes
        · intro hall
          have hex : ∃ es, edgesForNode nti allNames idx r ds = .ok es :=
            ih.mpr (fun d2 hd2 => hall d2 (List.mem_cons_of_mem _ hd2))
          rw [hrec] at hex
          rcases hex with ⟨es, hes⟩; cases hes

theorem mem_edgesForNode {nti : List (String × Nat)} {allNames : List String}
    {idx : Nat} {r : String} {deps : List String} {es : List (Nat × Nat)} :
    edgesForNode nti allNames idx r deps = .ok es →
      ∀ u w, ((u, w) ∈ es ↔ w = idx ∧ ∃ d ∈ deps, lookupName nti d = some u) := by
  induction deps generalizing es with
  | nil => intro h u w; cases h; simp
  | cons d ds ih =>
    intro h u w
    simp only [edgesForNode] at h
    cases hl : lookupName nti d with
    | none => rw [hl] at h; cases h
    | some di =>
      rw [hl] at h
      cases hrec : edgesForNode nti allNames idx r ds with
      | error e => rw [hrec] at h; cases h
      | ok es2 =>
        rw [hrec] at h
        cases h
        constructor
        · intro hmem
          rcases List.mem_cons.mp hmem with heq | hmem2
          · have h1 : u = di := congrArg Prod.fst heq
            have h2 : w = idx := congrArg Prod.snd heq
            subst h1; subst h2
            exact ⟨rfl, d, List.mem_cons_self d ds, hl⟩
          · have hr := (ih hrec u w).mp hmem2
            exact ⟨hr.1, hr.2.elim (fun d2 hd2 => ⟨d2, List.mem_cons_of_mem _ hd2.1, hd2.2⟩)⟩
        · rintro ⟨rfl, d2, hd2, hld⟩
          rcases List.mem_cons.mp hd2 with rfl | hmem2
          · rw [hl] at hld
            have : di = u := by simpa using hld
            subst this
            exact List.mem_cons_self _ _
          · exact List.mem_cons_of_mem _ ((ih hrec u _).mpr ⟨rfl, d2, hmem2, hld⟩)

theorem edgesForNode_first_error {nti : List (String × Nat)} {allNames : List String}
    {idx : Nat} {r : String} {dpre : List String} {D : String} {dpost : List String} :
    (∀ d ∈ dpre, lookupName nti d ≠ none) → lookupName nti D = none →
      edgesForNode nti allNames idx r (dpre ++ D :: dpost) =
        .error (.missingDependency D r (String.intercalate ", " allNames)) := by
  induction dpre with
  | nil => intro _ hD; simp [edgesForNode, hD]
  | cons d ds ih =>
    intro hall hD
    have hd : lookupName nti d ≠ none := hall d (List.mem_cons_self _ _)
    cases hl : lookupName nti d with
    | none => exact absurd hl hd
    | some di =>
      have hih := ih (fun x hx => hall x (List.mem_cons_of_mem _ hx)) hD
      simp only [List.cons_append, edgesForNode, hl, List.append_eq, hih]

theorem edgesForNode_error_shape {nti : List (String × Nat)} {allNames : List String}
    {idx : Nat} {r : String} {deps : List String} {e : DependencyGraphCreationError} :
    edgesForNode nti allNames idx r deps = .error e →
      ∃ d, e = .missingDependency d r (String.intercalate ", " allNames) ∧
        d ∈ deps ∧ lookupName nti d = none := by
  induction deps with
  | nil => intro h; cases h
  | cons d ds ih =>
    intro h
    simp only [edgesForNode] at h
    cases hl : lookupName nti d with
    | none =>
      rw [hl] at h
      cases h
      exact ⟨d, rfl, List.mem_cons_self d ds, hl⟩
    | some di =>
      rw [hl] at h
      cases hrec : edgesForNode nti allNames idx r ds with
      | ok es2 => rw [hrec] at h; cases h
      | error e2 =>
        rw [hrec] at h
        cases h
        obtain ⟨d2, he, hmem, hld⟩ := ih hrec
        exact ⟨d2, he, List.mem_cons_of_mem _ hmem, hld⟩

theorem buildEdges_ok_iff {nti : List (String × Nat)} {allNames : List String}
    {pairs : List (Nat × Node)} :
    (∃ es, buildEdges nti allNames pairs = .ok es) ↔
      ∀ p ∈ pairs, ∀ d ∈ p.2.dependencies, lookupName nti d ≠ none := by
  induction pairs with
  | nil =>
    constructor
    · intro _ p hp; exact absurd hp (List.not_mem_nil p)
    · intro _; exact ⟨[], rfl⟩
  | cons p rest ih =>
    obtain ⟨idx, nd⟩ := p
    simp only [buildEdges]
    cases h1 : edgesForNode nti allNames idx nd.name nd.dependencies with
    | error e =>
      constructor
      · rintro ⟨es, hes⟩; cases hes
      · intro hall
        have hex : ∃ es, edgesForNode nti allNames idx nd.name nd.dependencies = .ok es :=
          edgesForNode_ok_iff.mpr (fun d hd => hall (idx, nd) (List.mem_cons_self _ _) d hd)
        rw [h1] at hex
        rcases hex with ⟨es, hes⟩; cases hes
    | ok es1 =>
      cases h2 : buildEdges nti allNames rest with
      | error e =>
        constructor
        · rintro ⟨es, hes⟩; cases hes
        · intro hall
          have hex : ∃ es, buildEdges nti allNames rest = .ok es :=
            ih.mpr (fun p2 hp2 => hall p2 (List.mem_cons_of_mem _ hp2))
          rw [h2] at hex
          rcases hex with ⟨es, hes⟩; cases hes
      | ok es2 =>
        constructor
        · intro _ p2 hp2
          rcases List.mem_cons.mp hp2 with rfl | hmem
          · exact fun d hd => (edgesForNode_ok_iff.mp ⟨es1, h1⟩) d hd
          · exact (ih.mp ⟨es2, h2⟩) p2 hmem
        · intro _; exact ⟨es1 ++ es2, rfl⟩

theorem mem_buildEdges {nti : List (String × Nat)} {allNames : List String}
    {pairs : List (Nat × Node)} {es : List (Nat × Nat)} :
    buildEdges nti allNames pairs = .ok es →
      ∀ u w, ((u, w) ∈ es ↔
        ∃ nd, (w, nd) ∈ pairs ∧ ∃ d ∈ nd.dependencies, lookupName nti d = some u) := by
  induction pairs generalizing es with
  | nil => intro h u w; cases h; simp
  | cons p rest ih =>
    obtain ⟨idx, nd⟩ := p
    intro h u w
    simp only [buildEdges] at h
    cases h1 : edgesForNode nti allNames idx nd.name nd.dependencies with
    | error e => rw [h1] at h; cases h
    | ok es1 =>
      rw [h1] at h
      cases h2 : buildEdges nti allNames rest with
      | error e => rw [h2] at h; cases h
      | ok es2 =>
        rw [h2] at h
        cases h
        rw [List.mem_append]
        constructor
        · intro hmem
          rcases hmem with hm1 | hm2
          · obtain ⟨rfl, d, hd, hld⟩ := (mem_edgesForNode h1 u w).mp hm1
            exact ⟨nd, List.mem_cons_self _ _, d, hd, hld⟩
          · obtain ⟨nd2, hp2, d, hd, hld⟩ := (ih h2 u w).mp hm2
            exact ⟨nd2, List.mem_cons_of_mem _ hp2, d, hd, hld⟩
        · rintro ⟨nd2, hp2, d, hd, hld⟩
          rcases List.mem_cons.mp hp2 with heq | hmem
          · have hw : w = idx := congrArg Prod.fst heq
            have hn : nd2 = nd := congrArg Prod.snd heq
            subst hw; subst hn
            exact Or.inl ((mem_edgesForNode h1 u _).mpr ⟨rfl, d, hd, hld⟩)
          · exact Or.inr ((ih h2 u w).mpr ⟨nd2, hmem, d, hd, hld⟩)

theorem buildEdges_first_error {nti : List (String × Nat)} {allNames : List String}
    {ppre : List (Nat × Node)} {idx : Nat} {nd : Node} {ppost : List (Nat × Node)}
    {dpre : List String} {D : String} {dpost : List String} :
    (∀ p ∈ ppre, ∀ d ∈ p.2.dependencies, lookupName nti d ≠ none) →
    nd.dependencies = dpre ++ D :: dpost →
    (∀ d ∈ dpre, lookupName nti d ≠ none) → lookupName nti D = none →
      buildEdges nti allNames (ppre ++ (idx, nd) :: ppost) =
        .error (.missingDependency D nd.name (String.intercalate ", " allNames)) := by
  induction ppre with
  | nil =>
    intro _ hdeps hpre hD
    simp only [List.nil_append, buildEdges]
    rw [hdeps, edgesForNode_first_error hpre hD]
  | cons p rest ih =>
    intro hall hdeps hpre hD
    obtain ⟨idx2, nd2⟩ := p
    simp only [List.cons_append, buildEdges]
    cases h1 : edgesForNode nti allNames idx2 nd2.name nd2.dependencies with
    | error e =>
      exfalso
      obtain ⟨d, _, hmem, hld⟩ := edgesForNode_error_shape h1
      exact (hall (idx2, nd2) (List.mem_cons_self _ _) d hmem) hld
    | ok es1 =>
      have hih := ih (fun p2 hp2 => hall p2 (List.mem_cons_of_mem _ hp2)) hdeps hpre hD
      simp only [List.append_eq, hih]

theorem buildEdges_error_shape {nti : List (String × Nat)} {allNames : List String}
    {pairs : List (Nat × Node)} {e : DependencyGraphCreationError} :
    buildEdges nti allNames pairs = .error e →
      ∃ d r, e = .missingDependency d r (String.intercalate ", " allNames) ∧
        ∃ p ∈ pairs, d ∈ p.2.dependencies ∧ lookupName nti d = none := by
  induction pairs with
  | nil => intro h; cases h
  | cons p rest ih =>
    obtain ⟨idx, nd⟩ := p
    intro h
    simp only [buildEdges] at h
    cases h1 : edgesForNode nti allNames idx nd.name nd.dependencies with
    | error e2 =>
      rw [h1] at h
      cases h
      obtain ⟨d, he, hmem, hld⟩ := edgesForNode_error_shape h1
      exact ⟨d, nd.name, he, (idx, nd), List.mem_cons_self _ _, hmem, hld⟩
    | ok es1 =>
      rw [h1] at h
      cases h2 : buildEdges nti allNames rest with
      | ok es2 => rw [h2] at h; cases h
      | error e2 =>
        rw [h2] at h
        cases h
        obtain ⟨d, r, he, p2, hp2, hmem, hld⟩ := ih h2
        exact ⟨d, r, he, p2, List.mem_cons_of_mem _ hp2, hmem, hld⟩

/-! The traversal loop of get_dependencies and get_dependents. -/

theorem dfsFold_vis (l : List Nat) (vis : Finset Nat) (stk res : List Nat) :
    (l.foldl dfsStep (vis, stk, res)).1 = vis ∪ l.toFinset := by
  induction l generalizing vis stk res with
  | nil => simp
  | cons a l ih =>
    simp only [List.foldl_cons, dfsStep]
    by_cases h : a ∈ vis
    · simp only [if_pos h]
      rw [ih]
      ext x
      simp only [Finset.mem_union, List.toFinset_cons, Finset.mem_insert]
      constructor
      · rintro (hx | hx)
        · exact Or.inl hx
        · exact Or.inr (Or.inr hx)
      · rintro (hx | rfl | hx)
        · exact Or.inl hx
        · exact Or.inl h
        · exact Or.inr hx
    · simp only [if_neg h]
      rw [ih]
      ext x
      simp only [Finset.mem_union, Finset.mem_insert, List.toFinset_cons, List.mem_toFinset]
      constructor
      · rintro ((rfl | hx) | hx)
        · exact Or.inr (Or.inl rfl)
        · exact Or.inl hx
        · exact Or.inr (Or.inr (by simpa using hx))
      · rintro (hx | rfl | hx)
        · exact Or.inl (Or.inr hx)
        · exact Or.inl (Or.inl rfl)
        · exact Or.inr (by simpa using hx)

theorem dfsFold_stk (l : List Nat) (vis : Finset Nat) (stk res : List Nat) (x : Nat) :
    x ∈ (l.foldl dfsStep (vis, stk, res)).2.1 ↔ x ∈ stk ∨ (x ∈ l ∧ x ∉ vis) := by
  induction l generalizing vis stk res with
  | nil => simp
  | cons a l ih =>
    simp only [List.foldl_cons, dfsStep]
    by_cases h : a ∈ vis
    · simp only [if_pos h]
      rw [ih]
      constructor
      · rintro (hx | ⟨hl, hv⟩)
        · exact Or.inl hx
        · exact Or.inr ⟨List.mem_cons_of_mem _ hl, hv⟩
      · rintro (hx | ⟨hl, hv⟩)
        · exact Or.inl hx
        · rcases List.mem_cons.mp hl with rfl | hl2
          · exact absurd h hv
          · exact Or.inr ⟨hl2, hv⟩
    · simp only [if_neg h]
      rw [ih]
      constructor
      · rintro (hx | ⟨hl, hv⟩)
        · rcases List.mem_cons.mp hx with rfl | hx2
          · exact Or.inr ⟨List.mem_cons_self _ _, h⟩
          · exact Or.inl hx2
        · refine Or.inr ⟨List.mem_cons_of_mem _ hl, ?_⟩
          intro hxv; exact hv (Finset.mem_insert_of_mem hxv)
      · rintro (hx | ⟨hl, hv⟩)
        · exact Or.inl (List.mem_cons_of_mem _ hx)
        · rcases List.mem_cons.mp hl with rfl | hl2
          · exact Or.inl (List.mem_cons_self _ _)
          · by_cases hxa : x = a
            · subst hxa; exact Or.inl (List.mem_cons_self _ _)
            · exact Or.inr ⟨hl2, fun hxv => hv ((Finset.mem_insert.mp hxv).resolve_left hxa)⟩

theorem dfsFold_res (l : List Nat) (vis : Finset Nat) (stk res : List Nat) (x : Nat) :
    x ∈ (l.foldl dfsStep (vis, stk, res)).2.2 ↔ x ∈ res ∨ (x ∈ l ∧ x ∉ vis) := by
  induction l generalizing vis stk res with
  | nil => simp
  | cons a l ih =>
    simp only [List.foldl_cons, dfsStep]
    by_cases h : a ∈ vis
    · simp only [if_pos h]
      rw [ih]
      constructor
      · rintro (hx | ⟨hl, hv⟩)
        · exact Or.inl hx
        · exact Or.inr ⟨List.mem_cons_of_mem _ hl, hv⟩
      · rintro (hx | ⟨hl, hv⟩)
        · exact Or.inl hx
        · rcases List.mem_cons.mp hl with rfl | hl2
          · exact absurd h hv
          · exact Or.inr ⟨hl2, hv⟩
    · simp only [if_neg h]
      rw [ih]
      constructor
      · rintro (hx | ⟨hl, hv⟩)
        · rcases List.mem_append.mp hx with hx2 | hx2
          · exact Or.inl hx2
          · have : x = a := by simpa using hx2
            subst this
            exact Or.inr ⟨List.mem_cons_self _ _, h⟩
        · refine Or.inr ⟨List.mem_cons_of_mem _ hl, ?_⟩
          intro hxv; exact hv (Finset.mem_insert_of_mem hxv)
      · rintro (hx | ⟨hl, hv⟩)
        · exact Or.inl (List.mem_append.mpr (Or.inl hx))
        · rcases List.mem_cons.mp hl with rfl | hl2
          · exact Or.inl (List.mem_append.mpr (Or.inr (by simp)))
          · by_cases hxa : x = a
            · subst hxa; exact Or.inl (List.mem_append.mpr (Or.inr (by simp)))
            · exact Or.inr ⟨hl2, fun hxv => hv ((Finset.mem_insert.mp hxv).resolve_left hxa)⟩

theorem dfsFold_len (l : List Nat) (vis : Finset Nat) (stk res : List Nat) :
    (l.foldl dfsStep (vis, stk, res)).2.1.length + vis.card =
      stk.length + (l.foldl dfsStep (vis, stk, res)).1.card := by
  induction l generalizing vis stk res with
  | nil => simp
  | cons a l ih =>
    simp only [List.foldl_cons, dfsStep]
    by_cases h : a ∈ vis
    · simp only [if_pos h]; exact ih vis stk res
    · simp only [if_neg h]
      have := ih (insert a vis) (a :: stk) (res ++ [a])
      rw [Finset.card_insert_of_not_mem h] at this
      simp only [List.length_cons] at this
      omega

/-- Reachability along a neighbor function in at least one step. -/
def ReachAdj (adj : Nat → List Nat) (s v : Nat) : Prop :=
  Relation.TransGen (fun a b => b ∈ adj a) s v

/-- Soundness of the traversal loop: every visited vertex was already
visited or is reachable from a stack entry in at least one step. -/
theorem dfsAux_sound {adj : Nat → List Nat} :
    ∀ {fuel : Nat} {stack : List Nat} {vis : Finset Nat} {res res2 : List Nat}
      {vis2 : Finset Nat},
      dfsAux adj fuel stack vis res = some (res2, vis2) →
      ∀ x ∈ vis2, x ∈ vis ∨ ∃ s ∈ stack, ReachAdj adj s x := by
  intro fuel
  induction fuel with
  | zero => intro stack vis res res2 vis2 h; cases h
  | succ fuel ih =>
    intro stack vis res res2 vis2 h x hx
    cases stack with
    | nil =>
      simp only [dfsAux, Option.some_inj] at h
      have h2 : vis = vis2 := congrArg Prod.snd h
      exact Or.inl (h2.symm ▸ hx)
    | cons idx rest =>
      simp only [dfsAux] at h
      rcases ih h x hx with hvis | ⟨s, hs, hreach⟩
      · rw [dfsFold_vis] at hvis
        rcases Finset.mem_union.mp hvis with h1 | h1
        · exact Or.inl h1
        · exact Or.inr ⟨idx, List.mem_cons_self _ _,
            Relation.TransGen.single (List.mem_toFinset.mp h1)⟩
      · rw [dfsFold_stk] at hs
        rcases hs with hs1 | ⟨hs1, _⟩
        · exact Or.inr ⟨s, List.mem_cons_of_mem _ hs1, hreach⟩
        · exact Or.inr ⟨idx, List.mem_cons_self _ _, Relation.TransGen.head hs1 hreach⟩

/-- Invariant of the traversal loop: every visited vertex is still on the
stack or already has all its neighbors visited. -/
def DfsInv (adj : Nat → List Nat) (stack : List Nat) (vis : Finset Nat) : Prop :=
  ∀ v ∈ vis, v ∈ stack ∨ ∀ u ∈ adj v, u ∈ vis

/-- Completeness data of the traversal loop: the visited set grows, all
neighbors of stack entries are eventually visited, and the final visited
set is closed under the neighbor function. -/
theorem dfsAux_complete {adj : Nat → List Nat} :
    ∀ {fuel : Nat} {stack : List Nat} {vis : Finset Nat} {res res2 : List Nat}
      {vis2 : Finset Nat},
      DfsInv adj stack vis →
      dfsAux adj fuel stack vis res = some (res2, vis2) →
      vis ⊆ vis2 ∧ (∀ s ∈ stack, ∀ u ∈ adj s, u ∈ vis2) ∧
        (∀ v ∈ vis2, ∀ u ∈ adj v, u ∈ vis2) := by
  intro fuel
  induction fuel with
  | zero => intro stack vis res res2 vis2 _ h; cases h
  | succ fuel ih =>
    intro stack vis res res2 vis2 hinv h
    cases stack with
    | nil =>
      simp only [dfsAux, Option.some_inj] at h
      have hv : vis2 = vis := (congrArg Prod.snd h).symm
      subst hv
      refine ⟨Finset.Subset.refl _, by simp, ?_⟩
      intro v hv u hu
      rcases hinv v hv with hmem | hcl
      · exact absurd hmem (List.not_mem_nil v)
      · exact hcl u hu
    | cons idx rest =>
      simp only [dfsAux] at h
      have hinv2 : DfsInv adj
          ((adj idx).foldl dfsStep (vis, rest, res)).2.1
          ((adj idx).foldl dfsStep (vis, rest, res)).1 := by
        intro v hv
        rw [dfsFold_vis] at hv
        rcases Finset.mem_union.mp hv with h1 | h1
        · rcases hinv v h1 with hmem | hcl
          · rcases List.mem_cons.mp hmem with rfl | hmem2
            · right
              intro u hu
              rw [dfsFold_vis]
              exact Finset.mem_union_right _ (List.mem_toFinset.mpr hu)
            · left
              rw [dfsFold_stk]
              exact Or.inl hmem2
          · right
            intro u hu
            rw [dfsFold_vis]
            exact Finset.mem_union_left _ (hcl u hu)
        · by_cases h2 : v ∈ vis
          · rcases hinv v h2 with hmem | hcl
            · rcases List.mem_cons.mp hmem with rfl | hmem2
              · right
                intro u hu
                rw [dfsFold_vis]
                exact Finset.mem_union_right _ (List.mem_toFinset.mpr hu)
              · left
                rw [dfsFold_stk]
                exact Or.inl hmem2
            · right
              intro u hu
              rw [dfsFold_vis]
              exact Finset.mem_union_left _ (hcl u hu)
          · left
            rw [dfsFold_stk]
            exact Or.inr ⟨List.mem_toFinset.mp h1, h2⟩
      obtain ⟨hsub, hstk, hcl⟩ := ih hinv2 h
      have hvsub : vis ⊆ vis2 := by
        intro x hx
        apply hsub
        rw [dfsFold_vis]
        exact Finset.mem_union_left _ hx
      refine ⟨hvsub, ?_, hcl⟩
      intro s hs u hu
      rcases List.mem_cons.mp hs with rfl | hs2
      · apply hsub
        rw [dfsFold_vis]
        exact Finset.mem_union_right _ (List.mem_toFinset.mpr hu)
      · by_cases hrem : s ∈ ((adj idx).foldl dfsStep (vis, rest, res)).2.1
        · exact hstk s hrem u hu
        · exfalso
          apply hrem
          rw [dfsFold_stk]
          exact Or.inl hs2

/-- Result entries of the traversal loop are exactly the vertices visited
beyond the initial visited set. -/
theorem dfsAux_res {adj : Nat → List Nat} {vis0 : Finset Nat} :
    ∀ {fuel : Nat} {stack : List Nat} {vis : Finset Nat} {res res2 : List Nat}
      {vis2 : Finset Nat},
      vis0 ⊆ vis → (∀ x, x ∈ res ↔ x ∈ vis ∧ x ∉ vis0) →
      dfsAux adj fuel stack vis res = some (res2, vis2) →
      ∀ x, x ∈ res2 ↔ x ∈ vis2 ∧ x ∉ vis0 := by
  intro fuel
  induction fuel with
  | zero => intro stack vis res res2 vis2 _ _ h; cases h
  | succ fuel ih =>
    intro stack vis res res2 vis2 hsub hres h x
    cases stack with
    | nil =>
      simp only [dfsAux, Option.some_inj] at h
      have hr : res2 = res := (congrArg Prod.fst h).symm
      have hv : vis2 = vis := (congrArg Prod.snd h).symm
      subst hr; subst hv
      exact hres x
    | cons idx rest =>
      simp only [dfsAux] at h
      refine ih ?_ ?_ h x
      · intro y hy
        rw [dfsFold_vis]
        exact Finset.mem_union_left _ (hsub hy)
      · intro y
        rw [dfsFold_res, dfsFold_vis, hres y]
        constructor
        · rintro (⟨hv, hn⟩ | ⟨hl, hv⟩)
          · exact ⟨Finset.mem_union_left _ hv, hn⟩
          · exact ⟨Finset.mem_union_right _ (List.mem_toFinset.mpr hl),
              fun hy0 => hv (hsub hy0)⟩
        · rintro ⟨hv, hn⟩
          rcases Finset.mem_union.mp hv with h1 | h1
          · exact Or.inl ⟨h1, hn⟩
          · by_cases h2 : y ∈ vis
            · exact Or.inl ⟨h2, hn⟩
            · exact Or.inr ⟨List.mem_toFinset.mp h1, h2⟩

/-- Fuel sufficiency of the traversal loop on graphs whose neighbor lists
stay below a bound. -/
theorem dfsAux_total {adj : Nat → List Nat} {n : Nat}
    (hb : ∀ v, ∀ u ∈ adj v, u < n) :
    ∀ {fuel : Nat} {stack : List Nat} {vis : Finset Nat} {res : List Nat},
      vis ⊆ Finset.range n → fuel ≥ stack.length + (n - vis.card) + 1 →
      ∃ out, dfsAux adj fuel stack vis res = some out := by
  intro fuel
  induction fuel with
  | zero => intro stack vis res _ hf; omega
  | succ fuel ih =>
    intro stack vis res hrange hf
    cases stack with
    | nil => exact ⟨(res, vis), rfl⟩
    | cons idx rest =>
      simp only [dfsAux]
      apply ih
      · rw [dfsFold_vis]
        intro x hx
        rcases Finset.mem_union.mp hx with h1 | h1
        · exact hrange h1
        · exact Finset.mem_range.mpr (hb idx x (List.mem_toFinset.mp h1))
      · have hlen := dfsFold_len (adj idx) vis rest res
        have hcard1 : vis.card ≤ ((adj idx).foldl dfsStep (vis, rest, res)).1.card := by
          apply Finset.card_le_card
          rw [dfsFold_vis]
          exact Finset.subset_union_left
        have hcard2 : ((adj idx).foldl dfsStep (vis, rest, res)).1.card ≤ n := by
          have hsub2 : ((adj idx).foldl dfsStep (vis, rest, res)).1 ⊆ Finset.range n := by
            rw [dfsFold_vis]
            intro x hx
            rcases Finset.mem_union.mp hx with h1 | h1
            · exact hrange h1
            · exact Finset.mem_range.mpr (hb idx x (List.mem_toFinset.mp h1))
          have := Finset.card_le_card hsub2
          simpa using this
        simp only [List.length_cons] at hf
        omega

/-- Full characterization of one traversal from a start vertex on a graph
whose neighbor lists stay below a bound: the loop terminates, and its
result list holds exactly the vertices reachable in at least one step. -/
theorem dfsAux_char {adj : Nat → List Nat} {n : Nat}
    (hb : ∀ v, ∀ u ∈ adj v, u < n) (s : Nat) :
    ∃ res vis, dfsAux adj (2 * n + 2) [s] ∅ [] = some (res, vis) ∧
      (∀ x, x ∈ res ↔ ReachAdj adj s x) := by
  have htot : ∃ out, dfsAux adj (2 * n + 2) [s] ∅ [] = some out := by
    apply dfsAux_total hb (Finset.empty_subset _)
    simp only [List.length_cons, List.length_nil, Finset.card_empty]
    omega
  obtain ⟨out, hout⟩ := htot
  obtain ⟨res, vis⟩ := out
  refine ⟨res, vis, hout, ?_⟩
  have hres := dfsAux_res (Finset.empty_subset (∅ : Finset Nat)) (by simp) hout
  have hsound := dfsAux_sound hout
  have hcomp := dfsAux_complete (fun v hv => absurd hv (Finset.not_mem_empty v)) hout
  intro x
  rw [hres x]
  simp only [Finset.not_mem_empty, not_false_iff, and_true]
  constructor
  · intro hx
    rcases hsound x hx with h1 | ⟨s2, hs2, hr⟩
    · exact absurd h1 (Finset.not_mem_empty x)
    · have hss : s2 = s := by simpa using hs2
      subst hss; exact hr
  · intro hx
    have hx2 : Relation.TransGen (fun a b => b ∈ adj a) s x := hx
    clear hx
    induction hx2 with
    | single h1 => exact hcomp.2.1 s (List.mem_cons_self _ _) _ h1
    | tail h1 h2 ih2 => exact hcomp.2.2 _ ih2 _ h2

/-- Well-formedness of a graph: all edge endpoints are valid vertex
indices. -/
def WfGraph (g : DependencyGraph) : Prop :=
  ∀ e ∈ g.edges, e.1 < g.nodes.length ∧ e.2 < g.nodes.length

theorem outNeighbors_bound {g : DependencyGraph} (hwf : WfGraph g) :
    ∀ v, ∀ u ∈ g.outNeighbors v, u < g.nodes.length :=
  fun v u hu => (hwf _ (mem_outNeighbors.mp hu)).2

theorem inNeighbors_bound {g : DependencyGraph} (hwf : WfGraph g) :
    ∀ v, ∀ u ∈ g.inNeighbors v, u < g.nodes.length :=
  fun v u hu => (hwf _ (mem_inNeighbors.mp hu)).1

/-- Nodes in get_dependents are exactly the nodes at vertices reachable
forward from the looked-up vertex in at least one step. -/
theorem get_dependents_char {g : DependencyGraph} (hwf : WfGraph g)
    {name : String} {s : Nat} (hs : lookupName g.nameToIndex name = some s) :
    ∀ nd, nd ∈ g.get_dependents name ↔
      ∃ i, Relation.TransGen (edgeMem g) s i ∧ g.nodes[i]? = some nd := by
  intro nd
  unfold DependencyGraph.get_dependents
  obtain ⟨res, vis, hout, hchar⟩ := dfsAux_char (outNeighbors_bound hwf) s
  simp only [hs, hout, List.mem_filterMap]
  constructor
  · rintro ⟨i, hi, hget⟩
    refine ⟨i, ?_, hget⟩
    have hr := (hchar i).mp hi
    exact Relation.TransGen.mono (fun a b hb2 => mem_outNeighbors.mp hb2) hr
  · rintro ⟨i, hr, hget⟩
    refine ⟨i, ?_, hget⟩
    apply (hchar i).mpr
    exact Relation.TransGen.mono (fun a b hb2 => mem_outNeighbors.mpr hb2) hr

/-- Nodes in get_dependencies are exactly the nodes at vertices from which
the looked-up vertex is reachable in at least one step. -/
theorem get_dependencies_char {g : DependencyGraph} (hwf : WfGraph g)
    {name : String} {s : Nat} (hs : lookupName g.nameToIndex name = some s) :
    ∀ nd, nd ∈ g.get_dependencies name ↔
      ∃ i, Relation.TransGen (edgeMem g) i s ∧ g.nodes[i]? = some nd := by
  intro nd
  unfold DependencyGraph.get_dependencies
  obtain ⟨res, vis, hout, hchar⟩ := dfsAux_char (inNeighbors_bound hwf) s
  simp only [hs, hout, List.mem_filterMap]
  have hswap : ∀ i, Relation.TransGen (fun a b => b ∈ g.inNeighbors a) s i ↔
      Relation.TransGen (edgeMem g) i s := by
    intro i
    constructor
    · intro hr
      have hr2 : Relation.TransGen (Function.swap (edgeMem g)) s i :=
        Relation.TransGen.mono (fun a b hb2 => mem_inNeighbors.mp hb2) hr
      exact Relation.transGen_swap.mp hr2
    · intro hr
      have hr2 : Relation.TransGen (Function.swap (edgeMem g)) s i :=
        Relation.transGen_swap.mpr hr
      exact Relation.TransGen.mono (fun a b hb2 => mem_inNeighbors.mpr hb2) hr2
  constructor
  · rintro ⟨i, hi, hget⟩
    exact ⟨i, (hswap i).mp ((hchar i).mp hi), hget⟩
  · rintro ⟨i, hr, hget⟩
    exact ⟨i, (hchar i).mpr ((hswap i).mpr hr), hget⟩

/-! Correctness of the toposort model, first direction: a successful run
implies the graph is acyclic. The invariant tracks finishing ranks. -/

/-- Rank of a vertex in the finish stack, counted from the most recently
finished vertex. -/
def rankOf (l : List Nat) (v : Nat) : Nat :=
  match l with
  | [] => 0
  | x :: xs => if v = x then 0 else rankOf xs v + 1

theorem rankOf_cons_self (l : List Nat) (x : Nat) : rankOf (x :: l) x = 0 := by
  simp [rankOf]

theorem rankOf_cons_ne (l : List Nat) {x v : Nat} (h : v ≠ x) :
    rankOf (x :: l) v = rankOf l v + 1 := by
  simp [rankOf, h]

/-- Invariant of the inner toposort loop along the non-error path: the
finished set is discovered, discovered vertices have no self loops, the
finish stack lists the finished set, every discovered unfinished vertex is
still on the stack, and finishing ranks decrease along edges. -/
structure TopoOkInv (g : DependencyGraph) (stack : List Nat) (disc fin : Finset Nat)
    (fstack : List Nat) : Prop where
  finSubDisc : fin ⊆ disc
  noSelf : ∀ v ∈ disc, (v, v) ∉ g.edges
  finStack : ∀ v, v ∈ fstack ↔ v ∈ fin
  grayStack : ∀ v ∈ disc, v ∉ fin → v ∈ stack
  rank : ∀ u v, (u, v) ∈ g.edges → u ∈ fin →
    v ∈ fin ∧ rankOf fstack u < rankOf fstack v

theorem topoInner_ok {g : DependencyGraph} :
    ∀ {fuel : Nat} {stack : List Nat} {disc fin : Finset Nat} {fstack : List Nat}
      {d2 f2 : Finset Nat} {fs2 : List Nat},
      topoInner g fuel stack disc fin fstack = some (.ok (d2, f2, fs2)) →
      TopoOkInv g stack disc fin fstack →
      TopoOkInv g [] d2 f2 fs2 ∧ disc ⊆ d2 ∧ fin ⊆ f2 ∧ ∀ x ∈ stack, x ∈ d2 := by
  intro fuel
  induction fuel with
  | zero => intro stack disc fin fstack d2 f2 fs2 h _; cases h
  | succ fuel ih =>
    intro stack disc fin fstack d2 f2 fs2 h hinv
    cases stack with
    | nil =>
      simp only [topoInner, Option.some_inj, Except.ok.injEq] at h
      have h1 : disc = d2 := congrArg Prod.fst h
      have h23 : (fin, fstack) = (f2, fs2) := congrArg Prod.snd h
      have h2 : fin = f2 := congrArg Prod.fst h23
      have h3 : fstack = fs2 := congrArg Prod.snd h23
      subst h1; subst h2; subst h3
      exact ⟨hinv, Finset.Subset.refl _, Finset.Subset.refl _, by simp⟩
    | cons nx rest =>
      simp only [topoInner] at h
      by_cases hd : nx ∈ disc
      · rw [if_pos hd] at h
        by_cases hf : nx ∈ fin
        · rw [if_pos hf] at h
          have hinv2 : TopoOkInv g rest disc fin fstack :=
            { finSubDisc := hinv.finSubDisc
              noSelf := hinv.noSelf
              finStack := hinv.finStack
              grayStack := fun v hv hvf =>
                (List.mem_cons.mp (hinv.grayStack v hv hvf)).resolve_left
                  (fun heq => hvf (heq ▸ hf))
              rank := hinv.rank }
          obtain ⟨inv2, hsub1, hsub2, hstk⟩ := ih h hinv2
          exact ⟨inv2, hsub1, hsub2, fun x hx =>
            (List.mem_cons.mp hx).elim (fun heq => heq ▸ hsub1 hd) (hstk x)⟩
        · rw [if_neg hf] at h
          by_cases hall :
              ((g.outNeighbors nx).all fun s => decide (s ∈ insert nx fin)) = true
          · rw [if_pos hall] at h
            have hallm : ∀ s ∈ g.outNeighbors nx, s ∈ insert nx fin := by
              intro s hsm
              have := List.all_eq_true.mp hall s hsm
              exact of_decide_eq_true this
            have hnself : (nx, nx) ∉ g.edges := hinv.noSelf nx hd
            have hinv2 : TopoOkInv g rest disc (insert nx fin) (nx :: fstack) :=
              { finSubDisc := by
                  intro v hv
                  rcases Finset.mem_insert.mp hv with rfl | hv2
                  · exact hd
                  · exact hinv.finSubDisc hv2
                noSelf := hinv.noSelf
                finStack := by
                  intro v
                  rw [List.mem_cons, Finset.mem_insert, hinv.finStack v]
                grayStack := by
                  intro v hv hvf
                  have hvf2 : v ∉ fin := fun h2 => hvf (Finset.mem_insert_of_mem h2)
                  have hvn : v ≠ nx := fun h2 => hvf (h2 ▸ Finset.mem_insert_self nx fin)
                  exact (List.mem_cons.mp (hinv.grayStack v hv hvf2)).resolve_left hvn
                rank := by
                  intro u v huv hu
                  rcases Finset.mem_insert.mp hu with rfl | hu2
                  · have hvin : v ∈ insert u fin := hallm v (mem_outNeighbors.mpr huv)
                    have hvne : v ≠ u := by
                      rintro rfl
                      exact hnself huv
                    have hvfin : v ∈ fin := by
                      rcases Finset.mem_insert.mp hvin with h2 | h2
                      · exact absurd h2 hvne
                      · exact h2
                    refine ⟨Finset.mem_insert_of_mem hvfin, ?_⟩
                    rw [rankOf_cons_self, rankOf_cons_ne fstack hvne]
                    omega
                  · obtain ⟨hv2, hr⟩ := hinv.rank u v huv hu2
                    have hune : u ≠ nx := fun h2 => hf (h2 ▸ hu2)
                    have hvne : v ≠ nx := fun h2 => hf (h2 ▸ hv2)
                    refine ⟨Finset.mem_insert_of_mem hv2, ?_⟩
                    rw [rankOf_cons_ne fstack hune, rankOf_cons_ne fstack hvne]
                    omega }
            obtain ⟨inv2, hsub1, hsub2, hstk⟩ := ih h hinv2
            refine ⟨inv2, hsub1, Finset.Subset.trans (Finset.subset_insert nx fin) hsub2,
              fun x hx => (List.mem_cons.mp hx).elim (fun heq => heq ▸ hsub1 hd) (hstk x)⟩
          · rw [if_neg hall] at h
            cases h
      · rw [if_neg hd] at h
        by_cases hany : ((g.outNeighbors nx).any fun s => decide (s = nx)) = true
        · rw [if_pos hany] at h
          cases h
        · rw [if_neg hany] at h
          have hnself : (nx, nx) ∉ g.edges := by
            intro h2
            apply hany
            rw [List.any_eq_true]
            exact ⟨nx, mem_outNeighbors.mpr h2, by simp⟩
          have hinv2 : TopoOkInv g
              (((g.outNeighbors nx).filter (fun s => s ∉ insert nx disc)).reverse ++ nx :: rest)
              (insert nx disc) fin fstack :=
            { finSubDisc := Finset.Subset.trans hinv.finSubDisc (Finset.subset_insert nx disc)
              noSelf := by
                intro v hv
                rcases Finset.mem_insert.mp hv with rfl | hv2
                · exact hnself
                · exact hinv.noSelf v hv2
              finStack := hinv.finStack
              grayStack := by
                intro v hv hvf
                rcases Finset.mem_insert.mp hv with rfl | hv2
                · exact List.mem_append_right _ (List.mem_cons_self _ _)
                · exact List.mem_append_right _
                    (List.mem_cons_of_mem _
                      ((List.mem_cons.mp (hinv.grayStack v hv2 hvf)).resolve_left
                        (fun heq => hd (heq ▸ hv2))))
              rank := hinv.rank }
          obtain ⟨inv2, hsub1, hsub2, hstk⟩ := ih h hinv2
          have hnxd2 : nx ∈ d2 :=
            hstk nx (List.mem_append_right _ (List.mem_cons_self _ _))
          refine ⟨inv2, Finset.Subset.trans (Finset.subset_insert nx disc) hsub1, hsub2,
            fun x hx => (List.mem_cons.mp hx).elim (fun heq => heq ▸ hnxd2)
              (fun hx2 => hstk x (List.mem_append_right _ (List.mem_cons_of_mem _ hx2)))⟩

theorem topoOuter_ok {g : DependencyGraph} :
    ∀ {ids : List Nat} {disc fin : Finset Nat} {fstack : List Nat} {order : List Nat},
      topoOuter g ids disc fin fstack = some (.ok order) →
      TopoOkInv g [] disc fin fstack →
      ∃ d2 f2, TopoOkInv g [] d2 f2 order ∧ disc ⊆ d2 ∧ ∀ i ∈ ids, i ∈ d2 := by
  intro ids
  induction ids with
  | nil =>
    intro disc fin fstack order h hinv
    simp only [topoOuter, Option.some_inj, Except.ok.injEq] at h
    subst h
    exact ⟨disc, fin, hinv, Finset.Subset.refl _, by simp⟩
  | cons i rest ih =>
    intro disc fin fstack order h hinv
    simp only [topoOuter] at h
    by_cases hd : i ∈ disc
    · rw [if_pos hd] at h
      obtain ⟨d2, f2, inv2, hsub, hall⟩ := ih h hinv
      exact ⟨d2, f2, inv2, hsub,
        fun j hj => (List.mem_cons.mp hj).elim (fun heq => heq ▸ hsub hd) (hall j)⟩
    · rw [if_neg hd] at h
      cases hrun : topoInner g (topoFuel g) [i] disc fin fstack with
      | none => rw [hrun] at h; cases h
      | some r =>
        rw [hrun] at h
        cases r with
        | error v => cases h
        | ok st =>
          obtain ⟨d1, f1, fs1⟩ := st
          have hinv1 : TopoOkInv g [i] disc fin fstack :=
            { finSubDisc := hinv.finSubDisc
              noSelf := hinv.noSelf
              finStack := hinv.finStack
              grayStack := fun v hv hvf =>
                absurd (hinv.grayStack v hv hvf) (List.not_mem_nil v)
              rank := hinv.rank }
          obtain ⟨invI, hsubI, hfinI, hstkI⟩ := topoInner_ok hrun hinv1
          obtain ⟨d2, f2, inv2, hsub2, hall2⟩ := ih h invI
          refine ⟨d2, f2, inv2, Finset.Subset.trans hsubI hsub2, ?_⟩
          intro j hj
          rcases List.mem_cons.mp hj with rfl | hj2
          · exact hsub2 (hstkI j (List.mem_cons_self _ _))
          · exact hall2 j hj2

/-- A toposort run that returns an order certifies the graph acyclic. -/
theorem toposort_ok_acyclic {g : DependencyGraph} (hwf : WfGraph g) {order : List Nat}
    (h : toposort g = some (.ok order)) : ¬ Cyclic g := by
  rintro ⟨v, hcyc⟩
  have hinv0 : TopoOkInv g [] ∅ ∅ [] :=
    { finSubDisc := Finset.Subset.refl _
      noSelf := fun w hw => absurd hw (Finset.not_mem_empty w)
      finStack := by simp
      grayStack := fun w hw => absurd hw (Finset.not_mem_empty w)
      rank := fun u w _ hu => absurd hu (Finset.not_mem_empty u) }
  obtain ⟨d2, f2, inv2, _, hall⟩ := topoOuter_ok h hinv0
  have hdf : d2 ⊆ f2 := by
    intro x hx
    by_contra hxf
    exact absurd (inv2.grayStack x hx hxf) (List.not_mem_nil x)
  have hstep : ∀ u w, Relation.TransGen (edgeMem g) u w → u ∈ f2 →
      w ∈ f2 ∧ rankOf order u < rankOf order w := by
    intro u w hr
    induction hr with
    | single h1 => intro hu; exact inv2.rank _ _ h1 hu
    | tail h1 h2 ihh =>
      intro hu
      obtain ⟨hb, hrb⟩ := ihh hu
      obtain ⟨hw, hrw⟩ := inv2.rank _ _ h2 hb
      exact ⟨hw, by omega⟩
  have hvn : v < g.nodes.length := by
    cases hcyc with
    | single h1 => exact (hwf _ h1).1
    | tail h1 h2 => exact (hwf _ h2).2
  have hvf : v ∈ f2 := hdf (hall v (List.mem_range.mpr hvn))
  obtain ⟨_, hlt⟩ := hstep v v hcyc hvf
  omega

/-! Correctness of the toposort model, second direction: an error implies
a cycle. The invariant decomposes the stack into blocks pushed by the
gray (discovered, unfinished) vertices, which form a chain of edges. -/

/-- Decomposition of the inner stack below the gray vertices: each gray
vertex sits under the remains of the successor block it pushed, and every
successor of a gray vertex is either discovered or still in its block. -/
def StackBlocksP (g : DependencyGraph) (disc : Finset Nat) :
    List Nat → List Nat → Prop
  | _, [] => True
  | stack, gry :: grays =>
      ∃ blk rest, stack = blk ++ gry :: rest ∧
        (∀ x ∈ blk, (gry, x) ∈ g.edges) ∧
        (∀ x, (gry, x) ∈ g.edges → x ∈ disc ∨ x ∈ blk) ∧
        StackBlocksP g disc rest grays

theorem stackBlocksP_mono {g : DependencyGraph} {disc disc2 : Finset Nat}
    (hsub : disc ⊆ disc2) :
    ∀ {grays stack : List Nat}, StackBlocksP g disc stack grays →
      StackBlocksP g disc2 stack grays := by
  intro grays
  induction grays with
  | nil => intro stack h; trivial
  | cons gry gs ih =>
    intro stack h
    obtain ⟨blk, rest, heq, hblk, hcov, hrest⟩ := h
    exact ⟨blk, rest, heq, hblk,
      fun x hx => (hcov x hx).imp (fun h2 => hsub h2) id, ih hrest⟩

/-- Every vertex of the tail of the gray chain reaches its head. -/
theorem chain_reach {g : DependencyGraph} :
    ∀ {grays : List Nat} {hd x : Nat},
      List.Chain' (fun a b => (b, a) ∈ g.edges) (hd :: grays) → x ∈ grays →
      Relation.TransGen (edgeMem g) x hd := by
  intro grays
  induction grays with
  | nil => intro hd x _ hx; exact absurd hx (List.not_mem_nil x)
  | cons b rest ih =>
    intro hd x hch hx
    obtain ⟨h1, h2⟩ := List.chain'_cons.mp hch
    rcases List.mem_cons.mp hx with rfl | hx2
    · exact Relation.TransGen.single h1
    · exact Relation.TransGen.tail (ih h2 hx2) h1

/-- A chain element with a nonempty prefix has an edge to the last vertex
of that prefix. -/
theorem chain_mid_succ {g : DependencyGraph} {pre suf : List Nat} {y : Nat}
    (hch : List.Chain' (fun a b => (b, a) ∈ g.edges) (pre ++ y :: suf))
    (hpre : pre ≠ []) :
    ∃ z ∈ pre, (y, z) ∈ g.edges := by
  rw [List.chain'_append] at hch
  obtain ⟨_, _, hlink⟩ := hch
  refine ⟨pre.getLast hpre, List.getLast_mem hpre, ?_⟩
  exact hlink (pre.getLast hpre) (List.getLast?_eq_getLast pre hpre) y (by simp)

/-- Invariant of the inner toposort loop used to extract a cycle from any
error exit. -/
structure GrayInv (g : DependencyGraph) (stack : List Nat) (disc fin : Finset Nat)
    (grays : List Nat) : Prop where
  finSubDisc : fin ⊆ disc
  noSelf : ∀ v ∈ disc, (v, v) ∉ g.edges
  nodup : grays.Nodup
  graySet : ∀ v, v ∈ grays ↔ v ∈ disc ∧ v ∉ fin
  blocks : StackBlocksP g disc stack grays
  chain : List.Chain' (fun a b => (b, a) ∈ g.edges) grays

theorem topoInner_err {g : DependencyGraph} :
    ∀ {fuel : Nat} {stack : List Nat} {disc fin : Finset Nat} {fstack : List Nat}
      {grays : List Nat} {r : Except Nat (Finset Nat × Finset Nat × List Nat)},
      topoInner g fuel stack disc fin fstack = some r →
      GrayInv g stack disc fin grays →
      (∀ v, r = .error v → Cyclic g) ∧
      (∀ d2 f2 fs2, r = .ok (d2, f2, fs2) →
        d2 ⊆ f2 ∧ f2 ⊆ d2 ∧ ∀ v ∈ d2, (v, v) ∉ g.edges) := by
  intro fuel
  induction fuel with
  | zero => intro stack disc fin fstack grays r h _; cases h
  | succ fuel ih =>
    intro stack disc fin fstack grays r h hinv
    cases stack with
    | nil =>
      simp only [topoInner, Option.some_inj] at h
      subst h
      constructor
      · intro v hv; cases hv
      · intro d2 f2 fs2 hok
        have h1 : disc = d2 := congrArg Prod.fst (Except.ok.inj hok)
        have h23 := congrArg Prod.snd (Except.ok.inj hok)
        have h2 : fin = f2 := congrArg Prod.fst h23
        subst h1; subst h2
        have hgr : grays = [] := by
          cases hgr2 : grays with
          | nil => rfl
          | cons gry gs =>
            exfalso
            rw [hgr2] at hinv
            obtain ⟨blk, rest, heq, _, _, _⟩ := hinv.blocks
            exact absurd heq.symm (by simp)
        rw [hgr] at hinv
        refine ⟨?_, hinv.finSubDisc, hinv.noSelf⟩
        intro v hv
        by_contra hvf
        exact absurd ((hinv.graySet v).mpr ⟨hv, hvf⟩) (List.not_mem_nil v)
    | cons nx stail =>
      simp only [topoInner] at h
      cases hgrs : grays with
      | nil =>
        rw [hgrs] at hinv
        have hdf : disc ⊆ fin := by
          intro v hv
          by_contra hvf
          exact absurd ((hinv.graySet v).mpr ⟨hv, hvf⟩) (List.not_mem_nil v)
        by_cases hd : nx ∈ disc
        · rw [if_pos hd, if_pos (hdf hd)] at h
          have hinv2 : GrayInv g stail disc fin [] :=
            { finSubDisc := hinv.finSubDisc, noSelf := hinv.noSelf,
              nodup := List.nodup_nil, graySet := hinv.graySet,
              blocks := trivial, chain := List.chain'_nil }
          exact ih h hinv2
        · rw [if_neg hd] at h
          by_cases hany : ((g.outNeighbors nx).any fun s => decide (s = nx)) = true
          · rw [if_pos hany] at h
            simp only [Option.some_inj] at h
            subst h
            constructor
            · intro v hv
              obtain ⟨s, hsm, hse⟩ := List.any_eq_true.mp hany
              have hse2 : s = nx := of_decide_eq_true hse
              subst hse2
              exact ⟨s, Relation.TransGen.single (mem_outNeighbors.mp hsm)⟩
            · intro d2 f2 fs2 hok; cases hok
          · rw [if_neg hany] at h
            have hnself : (nx, nx) ∉ g.edges := by
              intro h2
              apply hany
              rw [List.any_eq_true]
              exact ⟨nx, mem_outNeighbors.mpr h2, by simp⟩
            have hinv2 : GrayInv g
                (((g.outNeighbors nx).filter (fun s => s ∉ insert nx disc)).reverse ++
                  nx :: stail)
                (insert nx disc) fin [nx] :=
              { finSubDisc :=
                  Finset.Subset.trans hinv.finSubDisc (Finset.subset_insert nx disc)
                noSelf := by
                  intro v hv
                  rcases Finset.mem_insert.mp hv with rfl | hv2
                  · exact hnself
                  · exact hinv.noSelf v hv2
                nodup := by simp
                graySet := by
                  intro v
                  constructor
                  · intro hv
                    have hv2 : v = nx := by simpa using hv
                    subst hv2
                    exact ⟨Finset.mem_insert_self _ _, fun h2 => hd (hinv.finSubDisc h2)⟩
                  · rintro ⟨hv, hvf⟩
                    rcases Finset.mem_insert.mp hv with rfl | hv2
                    · simp
                    · exact absurd ((hinv.graySet v).mpr ⟨hv2, hvf⟩) (List.not_mem_nil v)
                blocks := by
                  refine ⟨((g.outNeighbors nx).filter
                    (fun s => s ∉ insert nx disc)).reverse, stail, rfl, ?_, ?_, trivial⟩
                  · intro x hx
                    rw [List.mem_reverse, List.mem_filter] at hx
                    exact mem_outNeighbors.mp hx.1
                  · intro x hx
                    by_cases hxd : x ∈ insert nx disc
                    · exact Or.inl hxd
                    · refine Or.inr ?_
                      rw [List.mem_reverse, List.mem_filter]
                      exact ⟨mem_outNeighbors.mpr hx, by simpa using hxd⟩
                chain := List.chain'_singleton nx }
            exact ih h hinv2
      | cons gry gs =>
        rw [hgrs] at hinv
        obtain ⟨blk, rest2, heq, hblk, hcov, hrest⟩ := hinv.blocks
        have hgryd : gry ∈ disc ∧ gry ∉ fin :=
          (hinv.graySet gry).mp (List.mem_cons_self _ _)
        cases blk with
        | nil =>
          simp only [List.nil_append, List.cons.injEq] at heq
          obtain ⟨rfl, rfl⟩ := heq
          rw [if_pos hgryd.1, if_neg hgryd.2] at h
          by_cases hall :
              ((g.outNeighbors nx).all fun s => decide (s ∈ insert nx fin)) = true
          · rw [if_pos hall] at h
            have hinv2 : GrayInv g stail disc (insert nx fin) gs :=
              { finSubDisc := by
                  intro v hv
                  rcases Finset.mem_insert.mp hv with rfl | hv2
                  · exact hgryd.1
                  · exact hinv.finSubDisc hv2
                noSelf := hinv.noSelf
                nodup := hinv.nodup.of_cons
                graySet := by
                  intro v
                  have hvnx : v ∈ gs → v ≠ nx := by
                    intro hv heq2
                    subst heq2
                    exact (List.nodup_cons.mp hinv.nodup).1 hv
                  constructor
                  · intro hv
                    obtain ⟨hvd, hvf⟩ := (hinv.graySet v).mp (List.mem_cons_of_mem _ hv)
                    refine ⟨hvd, ?_⟩
                    intro h2
                    rcases Finset.mem_insert.mp h2 with h3 | h3
                    · exact (hvnx hv) h3
                    · exact hvf h3
                  · rintro ⟨hvd, hvf⟩
                    have hvf2 : v ∉ fin := fun h2 => hvf (Finset.mem_insert_of_mem h2)
                    have hvne : v ≠ nx := fun h2 => hvf (by rw [h2]; exact Finset.mem_insert_self nx _)
                    exact ((List.mem_cons.mp ((hinv.graySet v).mpr ⟨hvd, hvf2⟩)).resolve_left
                      hvne)
                blocks := hrest
                chain := hinv.chain.tail }
            exact ih h hinv2
          · rw [if_neg hall] at h
            simp only [Option.some_inj] at h
            subst h
            constructor
            · intro v hv
              have hex : ∃ x ∈ g.outNeighbors nx, x ∉ insert nx fin := by
                by_contra hno
                apply hall
                rw [List.all_eq_true]
                intro x hx
                rw [decide_eq_true_eq]
                by_contra hx2
                exact hno ⟨x, hx, hx2⟩
              obtain ⟨x, hxm, hxf⟩ := hex
              have hedge : (nx, x) ∈ g.edges := mem_outNeighbors.mp hxm
              have hxd : x ∈ disc := (hcov x hedge).resolve_right (List.not_mem_nil x)
              have hxfin : x ∉ fin := fun h2 => hxf (Finset.mem_insert_of_mem h2)
              have hxne : x ≠ nx := fun h2 => hxf (by rw [h2]; exact Finset.mem_insert_self nx _)
              have hxgs : x ∈ gs :=
                (List.mem_cons.mp ((hinv.graySet x).mpr ⟨hxd, hxfin⟩)).resolve_left hxne
              exact ⟨x, Relation.TransGen.tail (chain_reach hinv.chain hxgs) hedge⟩
            · intro d2 f2 fs2 hok; cases hok
        | cons y blk2 =>
          simp only [List.cons_append, List.cons.injEq] at heq
          obtain ⟨rfl, rfl⟩ := heq
          have hyedge : (gry, nx) ∈ g.edges := hblk nx (List.mem_cons_self _ _)
          by_cases hd : nx ∈ disc
          · rw [if_pos hd] at h
            by_cases hf : nx ∈ fin
            · rw [if_pos hf] at h
              have hinv2 : GrayInv g (blk2 ++ gry :: rest2) disc fin (gry :: gs) :=
                { finSubDisc := hinv.finSubDisc, noSelf := hinv.noSelf,
                  nodup := hinv.nodup, graySet := hinv.graySet,
                  blocks := by
                    refine ⟨blk2, rest2, rfl, fun x hx => hblk x (List.mem_cons_of_mem _ hx),
                      ?_, hrest⟩
                    intro x hx
                    rcases hcov x hx with h2 | h2
                    · exact Or.inl h2
                    · rcases List.mem_cons.mp h2 with rfl | h3
                      · exact Or.inl hd
                      · exact Or.inr h3
                  chain := hinv.chain }
              exact ih h hinv2
            · rw [if_neg hf] at h
              have hnxgry : nx ≠ gry := by
                rintro rfl
                exact hinv.noSelf nx hd hyedge
              have hnxgs : nx ∈ gs :=
                (List.mem_cons.mp ((hinv.graySet nx).mpr ⟨hd, hf⟩)).resolve_left hnxgry
              obtain ⟨pre2, suf, hsplit⟩ := List.append_of_mem hnxgs
              have hgrsplit : gry :: gs = (gry :: pre2) ++ nx :: suf := by
                rw [hsplit]; rfl
              have hcycle : Cyclic g :=
                ⟨nx, Relation.TransGen.tail (chain_reach hinv.chain hnxgs) hyedge⟩
              obtain ⟨z, hzpre, hzedge⟩ :=
                chain_mid_succ (hgrsplit ▸ hinv.chain) (by simp)
              have hznfin : z ∉ fin := by
                have hzgr : z ∈ gry :: gs := by
                  rw [hgrsplit]
                  exact List.mem_append_left _ hzpre
                exact ((hinv.graySet z).mp hzgr).2
              have hzne : z ≠ nx := by
                rintro rfl
                have hnd := hinv.nodup
                rw [hgrsplit] at hnd
                obtain ⟨_, _, hdisj⟩ := List.nodup_append.mp hnd
                exact hdisj hzpre (List.mem_cons_self _ _)
              have hallf : ¬ ((g.outNeighbors nx).all
                  fun s => decide (s ∈ insert nx fin)) = true := by
                intro htrue
                have := List.all_eq_true.mp htrue z (mem_outNeighbors.mpr hzedge)
                rw [decide_eq_true_eq] at this
                rcases Finset.mem_insert.mp this with h2 | h2
                · exact hzne h2
                · exact hznfin h2
              rw [if_neg hallf] at h
              simp only [Option.some_inj] at h
              subst h
              constructor
              · intro v hv; exact hcycle
              · intro d2 f2 fs2 hok; cases hok
          · rw [if_neg hd] at h
            by_cases hany : ((g.outNeighbors nx).any fun s => decide (s = nx)) = true
            · rw [if_pos hany] at h
              simp only [Option.some_inj] at h
              subst h
              constructor
              · intro v hv
                obtain ⟨s, hsm, hse⟩ := List.any_eq_true.mp hany
                have hse2 : s = nx := of_decide_eq_true hse
                subst hse2
                exact ⟨s, Relation.TransGen.single (mem_outNeighbors.mp hsm)⟩
              · intro d2 f2 fs2 hok; cases hok
            · rw [if_neg hany] at h
              have hnself : (nx, nx) ∉ g.edges := by
                intro h2
                apply hany
                rw [List.any_eq_true]
                exact ⟨nx, mem_outNeighbors.mpr h2, by simp⟩
              have hgrdisc : ∀ v ∈ gry :: gs, v ∈ disc :=
                fun v hv => ((hinv.graySet v).mp hv).1
              have hinv2 : GrayInv g
                  (((g.outNeighbors nx).filter (fun s => s ∉ insert nx disc)).reverse ++
                    nx :: (blk2 ++ gry :: rest2))
                  (insert nx disc) fin (nx :: gry :: gs) :=
                { finSubDisc :=
                    Finset.Subset.trans hinv.finSubDisc (Finset.subset_insert nx disc)
                  noSelf := by
                    intro v hv
                    rcases Finset.mem_insert.mp hv with rfl | hv2
                    · exact hnself
                    · exact hinv.noSelf v hv2
                  nodup := by
                    rw [List.nodup_cons]
                    exact ⟨fun h2 => hd (hgrdisc nx h2), hinv.nodup⟩
                  graySet := by
                    intro v
                    constructor
                    · intro hv
                      rcases List.mem_cons.mp hv with rfl | hv2
                      · exact ⟨Finset.mem_insert_self _ _,
                          fun h2 => hd (hinv.finSubDisc h2)⟩
                      · obtain ⟨hvd, hvf⟩ := (hinv.graySet v).mp hv2
                        exact ⟨Finset.mem_insert_of_mem hvd, hvf⟩
                    · rintro ⟨hv, hvf⟩
                      rcases Finset.mem_insert.mp hv with rfl | hv2
                      · exact List.mem_cons_self _ _
                      · exact List.mem_cons_of_mem _ ((hinv.graySet v).mpr ⟨hv2, hvf⟩)
                  blocks := by
                    refine ⟨((g.outNeighbors nx).filter
                      (fun s => s ∉ insert nx disc)).reverse, blk2 ++ gry :: rest2,
                      rfl, ?_, ?_, ?_⟩
                    · intro x hx
                      rw [List.mem_reverse, List.mem_filter] at hx
                      exact mem_outNeighbors.mp hx.1
                    · intro x hx
                      by_cases hxd : x ∈ insert nx disc
                      · exact Or.inl hxd
                      · refine Or.inr ?_
                        rw [List.mem_reverse, List.mem_filter]
                        exact ⟨mem_outNeighbors.mpr hx, by simpa using hxd⟩
                    · refine ⟨blk2, rest2, rfl,
                        fun x hx => hblk x (List.mem_cons_of_mem _ hx), ?_,
                        stackBlocksP_mono (Finset.subset_insert nx disc) hrest⟩
                      intro x hx
                      rcases hcov x hx with h2 | h2
                      · exact Or.inl (Finset.mem_insert_of_mem h2)
                      · rcases List.mem_cons.mp h2 with rfl | h3
                        · exact Or.inl (Finset.mem_insert_self _ _)
                        · exact Or.inr h3
                  chain := List.chain'_cons.mpr ⟨hyedge, hinv.chain⟩ }
              exact ih h hinv2

theorem topoOuter_err {g : DependencyGraph} :
    ∀ {ids : List Nat} {disc fin : Finset Nat} {fstack : List Nat} {v : Nat},
      disc ⊆ fin → fin ⊆ disc → (∀ w ∈ disc, (w, w) ∉ g.edges) →
      topoOuter g ids disc fin fstack = some (.error v) → Cyclic g := by
  intro ids
  induction ids with
  | nil =>
    intro disc fin fstack v _ _ _ h
    simp only [topoOuter, Option.some_inj] at h
    cases h
  | cons i rest ih =>
    intro disc fin fstack v hdf hfd hns h
    simp only [topoOuter] at h
    by_cases hd : i ∈ disc
    · rw [if_pos hd] at h
      exact ih hdf hfd hns h
    · rw [if_neg hd] at h
      cases hrun : topoInner g (topoFuel g) [i] disc fin fstack with
      | none => rw [hrun] at h; cases h
      | some r =>
        rw [hrun] at h
        have hinv : GrayInv g [i] disc fin [] :=
          { finSubDisc := hfd
            noSelf := hns
            nodup := List.nodup_nil
            graySet := by
              intro w
              constructor
              · intro hw; exact absurd hw (List.not_mem_nil w)
              · rintro ⟨hw, hwf⟩; exact absurd (hdf hw) hwf
            blocks := trivial
            chain := List.chain'_nil }
        obtain ⟨herr, hok⟩ := topoInner_err hrun hinv
        cases r with
        | error w => exact herr w rfl
        | ok st =>
          obtain ⟨d1, f1, fs1⟩ := st
          obtain ⟨h1, h2, h3⟩ := hok d1 f1 fs1 rfl
          exact ih h1 h2 h3 h

/-- A toposort error certifies a cycle in the graph. -/
theorem toposort_err_cyclic {g : DependencyGraph} {v : Nat}
    (h : toposort g = some (.error v)) : Cyclic g :=
  topoOuter_err (Finset.Subset.refl ∅) (Finset.Subset.refl ∅)
    (fun w hw => absurd hw (Finset.not_mem_empty w)) h

theorem outNeighbors_len_le (g : DependencyGraph) (v : Nat) :
    (g.outNeighbors v).length ≤ g.edges.length := by
  unfold DependencyGraph.outNeighbors
  rw [List.length_reverse, List.length_map]
  exact List.length_filter_le _ _

theorem topoInner_total {g : DependencyGraph} (hwf : WfGraph g) :
    ∀ {fuel : Nat} {stack : List Nat} {disc fin : Finset Nat} {fstack : List Nat},
      (∀ x ∈ stack, x < g.nodes.length) → disc ⊆ Finset.range g.nodes.length →
      fuel ≥ stack.length +
        (Finset.range g.nodes.length \ disc).card * (g.edges.length + 1) + 1 →
      ∃ r, topoInner g fuel stack disc fin fstack = some r ∧
        (∀ d2 f2 fs2, r = .ok (d2, f2, fs2) → d2 ⊆ Finset.range g.nodes.length) := by
  intro fuel
  induction fuel with
  | zero => intro stack disc fin fstack _ _ hf; omega
  | succ fuel ih =>
    intro stack disc fin fstack hstk hdisc hf
    cases stack with
    | nil =>
      refine ⟨.ok (disc, fin, fstack), rfl, ?_⟩
      intro d2 f2 fs2 hok
      have h1 : disc = d2 := congrArg Prod.fst (Except.ok.inj hok)
      exact h1 ▸ hdisc
    | cons nx stail =>
      simp only [topoInner]
      by_cases hd : nx ∈ disc
      · rw [if_pos hd]
        by_cases hfin : nx ∈ fin
        · rw [if_pos hfin]
          apply ih (fun x hx => hstk x (List.mem_cons_of_mem _ hx)) hdisc
          simp only [List.length_cons] at hf
          omega
        · rw [if_neg hfin]
          by_cases hall :
              ((g.outNeighbors nx).all fun s => decide (s ∈ insert nx fin)) = true
          · rw [if_pos hall]
            apply ih (fun x hx => hstk x (List.mem_cons_of_mem _ hx)) hdisc
            simp only [List.length_cons] at hf
            omega
          · rw [if_neg hall]
            exact ⟨.error nx, rfl, by intro d2 f2 fs2 hok; cases hok⟩
      · rw [if_neg hd]
        by_cases hany : ((g.outNeighbors nx).any fun s => decide (s = nx)) = true
        · rw [if_pos hany]
          exact ⟨.error nx, rfl, by intro d2 f2 fs2 hok; cases hok⟩
        · rw [if_neg hany]
          have hnx : nx < g.nodes.length := hstk nx (List.mem_cons_self _ _)
          have hdisc2 : insert nx disc ⊆ Finset.range g.nodes.length := by
            intro x hx
            rcases Finset.mem_insert.mp hx with rfl | hx2
            · exact Finset.mem_range.mpr hnx
            · exact hdisc hx2
          have hm : (Finset.range g.nodes.length \ insert nx disc).card + 1 =
              (Finset.range g.nodes.length \ disc).card := by
            have hset : Finset.range g.nodes.length \ insert nx disc =
                (Finset.range g.nodes.length \ disc).erase nx := by
              ext x
              simp only [Finset.mem_sdiff, Finset.mem_insert, Finset.mem_erase,
                Finset.mem_range]
              constructor
              · rintro ⟨hx1, hx2⟩
                push_neg at hx2
                exact ⟨hx2.1, hx1, hx2.2⟩
              · rintro ⟨hx1, hx2, hx3⟩
                refine ⟨hx2, ?_⟩
                push_neg
                exact ⟨hx1, hx3⟩
            rw [hset]
            have hmem : nx ∈ Finset.range g.nodes.length \ disc :=
              Finset.mem_sdiff.mpr ⟨Finset.mem_range.mpr hnx, hd⟩
            rw [Finset.card_erase_of_mem hmem]
            have hpos : 0 < (Finset.range g.nodes.length \ disc).card :=
              Finset.card_pos.mpr ⟨nx, hmem⟩
            omega
          apply ih
          · intro x hx
            rcases List.mem_append.mp hx with hx1 | hx1
            · rw [List.mem_reverse, List.mem_filter] at hx1
              exact (hwf _ (mem_outNeighbors.mp hx1.1)).2
            · rcases List.mem_cons.mp hx1 with rfl | hx2
              · exact hnx
              · exact hstk x (List.mem_cons_of_mem _ hx2)
          · exact hdisc2
          · have hQ : (Finset.range g.nodes.length \ disc).card * (g.edges.length + 1) =
                (Finset.range g.nodes.length \ insert nx disc).card *
                  (g.edges.length + 1) + (g.edges.length + 1) := by
              rw [← hm, Nat.succ_mul]
            have hF : ((g.outNeighbors nx).filter
                (fun s => s ∉ insert nx disc)).length ≤ g.edges.length :=
              Nat.le_trans (List.length_filter_le _ _) (outNeighbors_len_le g nx)
            simp only [List.length_append, List.length_reverse, List.length_cons] at hf ⊢
            omega

theorem topoOuter_total {g : DependencyGraph} (hwf : WfGraph g) :
    ∀ {ids : List Nat} {disc fin : Finset Nat} {fstack : List Nat},
      (∀ i ∈ ids, i < g.nodes.length) → disc ⊆ Finset.range g.nodes.length →
      ∃ r, topoOuter g ids disc fin fstack = some r := by
  intro ids
  induction ids with
  | nil => intro disc fin fstack _ _; exact ⟨.ok fstack, rfl⟩
  | cons i rest ih =>
    intro disc fin fstack hids hdisc
    simp only [topoOuter]
    by_cases hd : i ∈ disc
    · rw [if_pos hd]
      exact ih (fun j hj => hids j (List.mem_cons_of_mem _ hj)) hdisc
    · rw [if_neg hd]
      have hfuel : topoFuel g ≥ 1 +
          (Finset.range g.nodes.length \ disc).card * (g.edges.length + 1) + 1 := by
        have hcard : (Finset.range g.nodes.length \ disc).card ≤ g.nodes.length := by
          have := Finset.card_le_card
            (Finset.sdiff_subset (s := Finset.range g.nodes.length) (t := disc))
          simpa using this
        have := Nat.mul_le_mul_right (g.edges.length + 1) hcard
        unfold topoFuel
        omega
      have hrun : ∃ r, topoInner g (topoFuel g) [i] disc fin fstack = some r ∧
          (∀ d2 f2 fs2, r = .ok (d2, f2, fs2) →
            d2 ⊆ Finset.range g.nodes.length) := by
        apply topoInner_total hwf
        · intro x hx
          have hxi : x = i := by simpa using hx
          subst hxi
          exact hids x (List.mem_cons_self _ _)
        · exact hdisc
        · simpa using hfuel
      obtain ⟨r, hr, hok⟩ := hrun
      rw [hr]
      cases r with
      | error v => exact ⟨.error v, rfl⟩
      | ok st =>
        obtain ⟨d1, f1, fs1⟩ := st
        exact ih (fun j hj => hids j (List.mem_cons_of_mem _ hj)) (hok d1 f1 fs1 rfl)

/-- The toposort model never exhausts its fuel on well-formed graphs. -/
theorem toposort_total {g : DependencyGraph} (hwf : WfGraph g) :
    ∃ r, toposort g = some r :=
  topoOuter_total hwf (fun i hi => List.mem_range.mp hi) (Finset.empty_subset _)

/-! The cycle walk of DependencyGraph::new. -/

theorem head?_some_mem {α : Type} {l : List α} {a : α} (h : l.head? = some a) : a ∈ l := by
  cases l with
  | nil => cases h
  | cons x xs =>
    simp only [List.head?_cons, Option.some_inj] at h
    exact h ▸ List.mem_cons_self _ _

theorem dropWhile_ne_head {l : List Nat} {x : Nat} (h : x ∈ l) :
    ∃ t, l.dropWhile (fun y => decide (y ≠ x)) = x :: t := by
  induction l with
  | nil => exact absurd h (List.not_mem_nil x)
  | cons a l ih =>
    by_cases ha : a = x
    · subst ha
      refine ⟨l, ?_⟩
      rw [List.dropWhile_cons, if_neg (by simp)]
    · have hx2 : x ∈ l := (List.mem_cons.mp h).resolve_left (fun h2 => ha h2.symm)
      obtain ⟨t, ht⟩ := ih hx2
      refine ⟨t, ?_⟩
      rw [List.dropWhile_cons, if_pos (by simp [ha])]
      exact ht

/-- A repeat-terminated cycle walk yields a genuine cycle: consecutive
recorded vertices are joined by edges and the last recorded vertex has an
edge back to the first. -/
theorem cycleWalk_true_cycle {g : DependencyGraph} :
    ∀ {fuel cur : Nat} {vis : Finset Nat} {path p : List Nat},
      (∃ q, path = q ++ [cur]) →
      List.Chain' (fun a b => (a, b) ∈ g.edges) path →
      (∀ x, x ∈ vis ↔ x ∈ path) →
      cycleWalk g fuel cur vis path = (p, true) →
      ∃ x t lastv, p = x :: t ∧ List.Chain' (fun a b => (a, b) ∈ g.edges) p ∧
        p.getLast? = some lastv ∧ (lastv, x) ∈ g.edges := by
  intro fuel
  induction fuel with
  | zero =>
    intro cur vis path p _ _ _ h
    simp only [cycleWalk, Prod.mk.injEq] at h
    exact absurd h.2 (by simp)
  | succ fuel ih =>
    intro cur vis path p hq hchain hvis h
    simp only [cycleWalk] at h
    cases hh : (g.outNeighbors cur).head? with
    | none =>
      simp only [hh, Prod.mk.injEq] at h
      exact absurd h.2 (by simp)
    | some nxt =>
      simp only [hh] at h
      have hedge : (cur, nxt) ∈ g.edges := mem_outNeighbors.mp (head?_some_mem hh)
      by_cases hmem : nxt ∈ vis
      · rw [if_pos hmem] at h
        have hp : p = path.dropWhile (fun y => decide (y ≠ nxt)) :=
          (congrArg Prod.fst h).symm
        have hnxtp : nxt ∈ path := (hvis nxt).mp hmem
        obtain ⟨t, ht⟩ := dropWhile_ne_head hnxtp
        obtain ⟨q, hq2⟩ := hq
        have hsplit : path = path.takeWhile (fun y => decide (y ≠ nxt)) ++ nxt :: t := by
          rw [← ht, List.takeWhile_append_dropWhile]
        have hlast1 : path.getLast? = some cur := by
          rw [hq2]; exact List.getLast?_concat q
        have hlast2 : path.getLast? = (nxt :: t).getLast? := by
          conv_lhs => rw [hsplit]
          exact List.getLast?_append_cons _ nxt t
        have hchain2 : List.Chain' (fun a b => (a, b) ∈ g.edges) (nxt :: t) := by
          have hch2 : List.Chain' (fun a b => (a, b) ∈ g.edges)
              (path.takeWhile (fun y => decide (y ≠ nxt)) ++ nxt :: t) := by
            rw [← hsplit]; exact hchain
          exact (List.chain'_append.mp hch2).2.1
        refine ⟨nxt, t, cur, by rw [hp, ht], by rw [hp, ht]; exact hchain2, ?_, hedge⟩
        rw [hp, ht, ← hlast2, hlast1]
      · rw [if_neg hmem] at h
        apply ih
          (⟨path, rfl⟩ : ∃ q2, path ++ [nxt] = q2 ++ [nxt]) ?_ ?_ h
        · rw [List.chain'_append]
          refine ⟨hchain, List.chain'_singleton nxt, ?_⟩
          intro x hx y hy
          obtain ⟨q, hq2⟩ := hq
          rw [hq2, List.getLast?_concat] at hx
          have hx2 : cur = x := by simpa using hx
          have hy2 : nxt = y := by simpa using hy
          subst hx2; subst hy2
          exact hedge
        · intro x
          rw [Finset.mem_insert, List.mem_append, hvis x]
          constructor
          · rintro (rfl | h2)
            · exact Or.inr (by simp)
            · exact Or.inl h2
          · rintro (h2 | h2)
            · exact Or.inr h2
            · exact Or.inl (by simpa using h2)

/-! Build-level characterizations of DependencyGraph::new. -/

theorem getElem?_some_lt {α : Type} {l : List α} {j : Nat} {a : α}
    (h : l[j]? = some a) : j < l.length := by
  by_contra hc
  rw [List.getElem?_eq_none (by omega)] at h
  cases h

theorem inputDepB_eq_true {nodes : List Node} {i j : Nat} :
    inputDepB nodes i j = true ↔
      ∃ ndi ndj, nodes[i]? = some ndi ∧ nodes[j]? = some ndj ∧
        ndi.name ∈ ndj.dependencies := by
  unfold inputDepB
  cases h1 : nodes[i]? with
  | none => simp
  | some ndi =>
    cases h2 : nodes[j]? with
    | none => simp
    | some ndj =>
      simp only [decide_eq_true_eq]
      constructor
      · intro hm; exact ⟨ndi, ndj, rfl, rfl, hm⟩
      · rintro ⟨n1, n2, he1, he2, hm⟩
        have hh1 : ndi = n1 := by simpa using he1
        have hh2 : ndj = n2 := by simpa using he2
        rw [hh1, hh2]
        exact hm

theorem withIdx_append {α : Type} :
    ∀ (l1 l2 : List α) (k : Nat),
      withIdx k (l1 ++ l2) = withIdx k l1 ++ withIdx (k + l1.length) l2 := by
  intro l1
  induction l1 with
  | nil => intro l2 k; simp [withIdx]
  | cons a l1 ih =>
    intro l2 k
    simp only [List.cons_append, withIdx, List.length_cons]
    rw [List.append_eq, ih, show k + (l1.length + 1) = k + 1 + l1.length by omega]

theorem nodup_name_inj {nodes : List Node} (hnd : (nodes.map (·.name)).Nodup) :
    ∀ {i j : Nat} {a b : Node}, nodes[i]? = some a → nodes[j]? = some b →
      a.name = b.name → i = j ∧ a = b := by
  induction nodes with
  | nil => intro i j a b ha; cases i <;> cases ha
  | cons nd rest ih =>
    intro i j a b ha hb hab
    have hnotin : nd.name ∉ rest.map (·.name) := by
      simp only [List.map_cons, List.nodup_cons] at hnd; exact hnd.1
    have hnd2 : (rest.map (·.name)).Nodup := by
      simp only [List.map_cons, List.nodup_cons] at hnd; exact hnd.2
    cases i with
    | zero =>
      have ha2 : nd = a := by simpa using ha
      cases j with
      | zero =>
        have hb2 : nd = b := by simpa using hb
        exact ⟨rfl, by rw [← ha2, ← hb2]⟩
      | succ j =>
        exfalso
        apply hnotin
        rw [List.mem_map]
        refine ⟨b, mem_of_getElem?_some (by simpa using hb), ?_⟩
        rw [← hab, ← ha2]
    | succ i =>
      cases j with
      | zero =>
        exfalso
        have hb2 : nd = b := by simpa using hb
        apply hnotin
        rw [List.mem_map]
        refine ⟨a, mem_of_getElem?_some (by simpa using ha), ?_⟩
        rw [hab, ← hb2]
      | succ j =>
        obtain ⟨hij, habe⟩ := ih hnd2 (by simpa using ha) (by simpa using hb) hab
        exact ⟨by omega, habe⟩

theorem build_ok_elim {nodes : List Node} {allow : Bool} {g : DependencyGraph}
    (h : DependencyGraph.new nodes allow = .ok g) :
    g.nodes = nodes ∧ g.nameToIndex = ntiOf nodes ∧
    (nodes.map (·.name)).Nodup ∧
    buildEdges (ntiOf nodes) (nodes.map (·.name)) (withIdx 0 nodes) = .ok g.edges ∧
    (allow = false → ∀ v, toposort g ≠ some (.error v)) := by
  unfold DependencyGraph.new at h
  cases hdup : firstDuplicate (nodes.map (·.name)) with
  | some n => rw [hdup] at h; cases h
  | none =>
    simp only [hdup] at h
    cases hbe : buildEdges (ntiOf nodes) (nodes.map (·.name)) (withIdx 0 nodes) with
    | error e => rw [hbe] at h; cases h
    | ok es =>
      rw [hbe] at h
      have hnodup := firstDuplicate_eq_none.mp hdup
      cases allow with
      | true =>
        simp only [if_pos] at h
        have hg : (⟨nodes, es, ntiOf nodes⟩ : DependencyGraph) = g := Except.ok.inj h
        subst hg
        exact ⟨rfl, rfl, hnodup, rfl, fun hfalse => by cases hfalse⟩
      | false =>
        simp only [Bool.false_eq_true, if_neg, not_false_iff] at h
        cases htopo : toposort (⟨nodes, es, ntiOf nodes⟩ : DependencyGraph) with
        | none =>
          rw [htopo] at h
          have hg : (⟨nodes, es, ntiOf nodes⟩ : DependencyGraph) = g := Except.ok.inj h
          subst hg
          exact ⟨rfl, rfl, hnodup, rfl, fun _ v hv => by rw [htopo] at hv; cases hv⟩
        | some r =>
          rw [htopo] at h
          cases r with
          | error v => cases h
          | ok order =>
            have hg : (⟨nodes, es, ntiOf nodes⟩ : DependencyGraph) = g := Except.ok.inj h
            subst hg
            exact ⟨rfl, rfl, hnodup, rfl, fun _ v hv => by
              rw [htopo] at hv
              cases hv⟩

theorem buildEdges_wf {nodes : List Node} {es : List (Nat × Nat)}
    (hnd : (nodes.map (·.name)).Nodup)
    (h : buildEdges (ntiOf nodes) (nodes.map (·.name)) (withIdx 0 nodes) = .ok es) :
    ∀ e ∈ es, e.1 < nodes.length ∧ e.2 < nodes.length := by
  rintro ⟨u, w⟩ hm
  obtain ⟨nd, hp, d, hd, hld⟩ := (mem_buildEdges h u w).mp hm
  constructor
  · obtain ⟨nd2, hget, _⟩ := (lookupName_ntiOf_eq_some hnd).mp hld
    exact getElem?_some_lt hget
  · obtain ⟨j, hj, hget⟩ := mem_withIdx.mp hp
    simp only at hj
    rw [show w = j by omega]
    exact getElem?_some_lt hget

/-- With unique names and resolvable dependencies, the built edge set is
membership-equivalent to the declared dependency relation. -/
theorem build_edges_iff {nodes : List Node} {es : List (Nat × Nat)}
    (hnd : (nodes.map (·.name)).Nodup)
    (h : buildEdges (ntiOf nodes) (nodes.map (·.name)) (withIdx 0 nodes) = .ok es) :
    ∀ u w, ((u, w) ∈ es ↔ inputDepB nodes u w = true) := by
  intro u w
  rw [mem_buildEdges h u w, inputDepB_eq_true]
  constructor
  · rintro ⟨nd, hp, d, hd, hld⟩
    obtain ⟨j, hj, hget⟩ := mem_withIdx.mp hp
    simp only at hj
    obtain ⟨ndu, hgetu, hnameu⟩ := (lookupName_ntiOf_eq_some hnd).mp hld
    refine ⟨ndu, nd, hgetu, ?_, by rw [hnameu]; exact hd⟩
    rw [show w = j by omega]
    exact hget
  · rintro ⟨ndu, ndw, hgetu, hgetw, hm⟩
    refine ⟨ndw, ?_, ndu.name, hm, ?_⟩
    · rw [mem_withIdx]
      exact ⟨w, by omega, hgetw⟩
    · exact (lookupName_ntiOf_eq_some hnd).mpr ⟨ndu, hgetu, rfl⟩

theorem buildEdges_ok_of_res {nodes : List Node}
    (hres : ∀ nd ∈ nodes, ∀ d ∈ nd.dependencies, ∃ nd2 ∈ nodes, nd2.name = d) :
    ∃ es, buildEdges (ntiOf nodes) (nodes.map (·.name)) (withIdx 0 nodes) = .ok es := by
  apply buildEdges_ok_iff.mpr
  rintro ⟨idx, nd⟩ hp d hd hlnone
  obtain ⟨j, hj, hget⟩ := mem_withIdx.mp hp
  have hmem : nd ∈ nodes := mem_of_getElem?_some hget
  obtain ⟨nd2, hmem2, hname⟩ := hres nd hmem d hd
  exact (lookupName_ntiOf_eq_none.mp hlnone nd2 hmem2) hname

/-- A build with cycle tolerance succeeds on unique names and resolvable
dependencies. -/
theorem build_ok_true {nodes : List Node}
    (hnd : (nodes.map (·.name)).Nodup)
    (hres : ∀ nd ∈ nodes, ∀ d ∈ nd.dependencies, ∃ nd2 ∈ nodes, nd2.name = d) :
    ∃ g, DependencyGraph.new nodes true = .ok g := by
  obtain ⟨es, hbe⟩ := buildEdges_ok_of_res hres
  refine ⟨⟨nodes, es, ntiOf nodes⟩, ?_⟩
  unfold DependencyGraph.new
  simp only [firstDuplicate_eq_none.mpr hnd, hbe]
  simp

/-- A build without cycle tolerance succeeds when moreover the declared
dependency relation has no cycle. -/
theorem build_ok_false {nodes : List Node}
    (hnd : (nodes.map (·.name)).Nodup)
    (hres : ∀ nd ∈ nodes, ∀ d ∈ nd.dependencies, ∃ nd2 ∈ nodes, nd2.name = d)
    (hacyc : ¬ ∃ i, Relation.TransGen (fun a b => inputDepB nodes a b = true) i i) :
    ∃ g, DependencyGraph.new nodes false = .ok g := by
  obtain ⟨es, hbe⟩ := buildEdges_ok_of_res hres
  have hwf : WfGraph (⟨nodes, es, ntiOf nodes⟩ : DependencyGraph) :=
    buildEdges_wf hnd hbe
  obtain ⟨r, htopo⟩ := toposort_total hwf
  cases r with
  | error v =>
    exfalso
    obtain ⟨w, hw⟩ := toposort_err_cyclic htopo
    apply hacyc
    refine ⟨w, Relation.TransGen.mono ?_ hw⟩
    intro a b hab
    exact (build_edges_iff hnd hbe a b).mp hab
  | ok order =>
    refine ⟨⟨nodes, es, ntiOf nodes⟩, ?_⟩
    unfold DependencyGraph.new
    simp only [firstDuplicate_eq_none.mpr hnd, hbe, htopo]
    simp

/-- A build fails with CircularDependency when the declared dependency
relation of a well-named, fully resolvable node list has a cycle. -/
theorem build_cyclic_err {nodes : List Node}
    (hnd : (nodes.map (·.name)).Nodup)
    (hres : ∀ nd ∈ nodes, ∀ d ∈ nd.dependencies, ∃ nd2 ∈ nodes, nd2.name = d)
    (hcyc : ∃ i, Relation.TransGen (fun a b => inputDepB nodes a b = true) i i) :
    ∃ s f, DependencyGraph.new nodes false = .error (.circularDependency s f) := by
  obtain ⟨es, hbe⟩ := buildEdges_ok_of_res hres
  have hwf : WfGraph (⟨nodes, es, ntiOf nodes⟩ : DependencyGraph) :=
    buildEdges_wf hnd hbe
  obtain ⟨r, htopo⟩ := toposort_total hwf
  cases r with
  | ok order =>
    exfalso
    apply toposort_ok_acyclic hwf htopo
    obtain ⟨w, hw⟩ := hcyc
    refine ⟨w, Relation.TransGen.mono ?_ hw⟩
    intro a b hab
    exact (build_edges_iff hnd hbe a b).mpr hab
  | error v =>
    have hbuild : DependencyGraph.new nodes false =
        .error (cycleErrorOf (⟨nodes, es, ntiOf nodes⟩ : DependencyGraph) v) := by
      unfold DependencyGraph.new
      simp only [firstDuplicate_eq_none.mpr hnd, hbe, htopo]
      simp
    exact ⟨_, _, hbuild⟩

/-- A build fails with the first missing dependency in scan order,
reporting the dependency, the referencing node, and the comma-joined
known names. -/
theorem build_missing {pre : List Node} {nd : Node} {post : List Node}
    {dpre : List String} {D : String} {dpost : List String} {allow : Bool}
    (hnd : (((pre ++ nd :: post).map (·.name))).Nodup)
    (hdeps : nd.dependencies = dpre ++ D :: dpost)
    (hpre : ∀ nd2 ∈ pre, ∀ d ∈ nd2.dependencies,
      ∃ nd3 ∈ pre ++ nd :: post, nd3.name = d)
    (hdpre : ∀ d ∈ dpre, ∃ nd3 ∈ pre ++ nd :: post, nd3.name = d)
    (hD : ∀ nd3 ∈ pre ++ nd :: post, nd3.name ≠ D) :
    DependencyGraph.new (pre ++ nd :: post) allow =
      .error (.missingDependency D nd.name
        (String.intercalate ", " ((pre ++ nd :: post).map (·.name)))) := by
  have hlookup : ∀ d, (∃ nd3 ∈ pre ++ nd :: post, nd3.name = d) →
      lookupName (ntiOf (pre ++ nd :: post)) d ≠ none := by
    intro d hd hlnone
    obtain ⟨nd3, hmem3, hname3⟩ := hd
    exact (lookupName_ntiOf_eq_none.mp hlnone nd3 hmem3) hname3
  have hsplit : withIdx 0 (pre ++ nd :: post) =
      withIdx 0 pre ++ (pre.length, nd) :: withIdx (pre.length + 1) post := by
    rw [withIdx_append]
    simp [withIdx]
  have hbe : buildEdges (ntiOf (pre ++ nd :: post))
      ((pre ++ nd :: post).map (·.name)) (withIdx 0 (pre ++ nd :: post)) =
      .error (.missingDependency D nd.name
        (String.intercalate ", " ((pre ++ nd :: post).map (·.name)))) := by
    rw [hsplit]
    apply buildEdges_first_error
    · rintro ⟨idx, nd2⟩ hp d hd2
      obtain ⟨j, hj, hget⟩ := mem_withIdx.mp hp
      exact hlookup d (hpre nd2 (mem_of_getElem?_some hget) d hd2)
    · exact hdeps
    · intro d hd2
      exact hlookup d (hdpre d hd2)
    · exact lookupName_ntiOf_eq_none.mpr hD
  unfold DependencyGraph.new
  simp only [firstDuplicate_eq_none.mpr hnd, hbe]

/-! Characterization of get_affected_nodes. -/

theorem foldl_insert_mem (l : List String) (acc : Finset String) (x : String) :
    x ∈ l.foldl (fun a y => insert y a) acc ↔ x ∈ acc ∨ x ∈ l := by
  induction l generalizing acc with
  | nil => simp
  | cons a l ih =>
    simp only [List.foldl_cons, ih, Finset.mem_insert, List.mem_cons]
    tauto

theorem get_affected_nodes_mem (g : DependencyGraph) (changed : List String)
    (x : String) :
    x ∈ g.get_affected_nodes changed ↔
      ∃ nd ∈ g.nodes, (∃ p ∈ changed, nd.includes_path p = true) ∧
        (x = nd.name ∨ ∃ d ∈ g.get_dependents nd.name, d.name = x) := by
  unfold DependencyGraph.get_affected_nodes DependencyGraph.get_all_nodes
  have main : ∀ (ns : List Node) (acc : Finset String),
      (x ∈ ns.foldl
        (fun acc nd =>
          if changed.any (fun p => nd.includes_path p) then
            ((g.get_dependents nd.name).map (·.name)).foldl (fun a y => insert y a)
              (insert nd.name acc)
          else acc) acc ↔
      x ∈ acc ∨ ∃ nd ∈ ns, (∃ p ∈ changed, nd.includes_path p = true) ∧
        (x = nd.name ∨ ∃ d ∈ g.get_dependents nd.name, d.name = x)) := by
    intro ns
    induction ns with
    | nil => intro acc; simp
    | cons nd ns ih =>
      intro acc
      simp only [List.foldl_cons]
      by_cases hown : (changed.any fun p => nd.includes_path p) = true
      · rw [if_pos hown, ih, foldl_insert_mem]
        have howns : ∃ p ∈ changed, nd.includes_path p = true :=
          List.any_eq_true.mp hown
        simp only [Finset.mem_insert, List.mem_map, List.mem_cons]
        constructor
        · rintro (((rfl | hacc) | hmap) | ⟨nd2, hnd2, hrest⟩)
          · exact Or.inr ⟨nd, Or.inl rfl, howns, Or.inl rfl⟩
          · exact Or.inl hacc
          · obtain ⟨d, hd, hdx⟩ := hmap
            exact Or.inr ⟨nd, Or.inl rfl, howns, Or.inr ⟨d, hd, hdx⟩⟩
          · exact Or.inr ⟨nd2, Or.inr hnd2, hrest⟩
        · rintro (hacc | ⟨nd2, hnd2, hset, hnm⟩)
          · exact Or.inl (Or.inl (Or.inr hacc))
          · rcases hnd2 with rfl | hnd2
            · rcases hnm with rfl | ⟨d, hd, hdx⟩
              · exact Or.inl (Or.inl (Or.inl rfl))
              · exact Or.inl (Or.inr ⟨d, hd, hdx⟩)
            · exact Or.inr ⟨nd2, hnd2, hset, hnm⟩
      · rw [if_neg hown, ih]
        constructor
        · rintro (hacc | ⟨nd2, hnd2, hset, hnm⟩)
          · exact Or.inl hacc
          · exact Or.inr ⟨nd2, List.mem_cons_of_mem _ hnd2, hset, hnm⟩
        · rintro (hacc | ⟨nd2, hnd2, hset, hnm⟩)
          · exact Or.inl hacc
          · rcases List.mem_cons.mp hnd2 with rfl | hnd2b
            · exact absurd (List.any_eq_true.mpr hset) hown
            · exact Or.inr ⟨nd2, hnd2b, hset, hnm⟩
  rw [main g.nodes ∅]
  simp

/-! Claim theorems. -/

/-- C1: get_affected_nodes returns exactly the set of names obtained as
the union, over every node owning at least one changed path (ownership
being includes_path), of the owning node's own name and the names of all
its dependents; a changed path matching no node contributes nothing and
raises no error, and the result is a set of names (no duplicates, being
a Finset). -/
theorem claim_C1_affected_nodes (g : DependencyGraph) (changed_files : List String)
    (x : String) :
    x ∈ g.get_affected_nodes changed_files ↔
      ∃ nd ∈ g.nodes, (∃ p ∈ changed_files, nd.includes_path p = true) ∧
        (x = nd.name ∨ ∃ d ∈ g.get_dependents nd.name, d.name = x) :=
  get_affected_nodes_mem g changed_files x

/-- C2: includes_path is true exactly when some include pattern, resolved
by joining onto the node's base path, matches the candidate and no
resolved exclude pattern matches it; in particular a matching exclude
forces the result to false. -/
theorem claim_C2_includes_path (nd : Node) (p : String) :
    nd.includes_path p = true ↔
      ((∃ pat ∈ nd.included_paths, patternMatchesPath nd.path pat p = true) ∧
        ∀ pat ∈ nd.excluded_paths, patternMatchesPath nd.path pat p = false) := by
  unfold Node.includes_path
  simp only [Bool.and_eq_true, Bool.not_eq_true', List.any_eq_true, List.any_eq_false,
    Bool.not_eq_true]

theorem pattern_compile_fail_no_match {base pat p : String}
    (h : (GlobPattern.new (pathJoin base pat)).isSome = false) :
    patternMatchesPath base pat p = false := by
  unfold patternMatchesPath
  cases hc : GlobPattern.new (pathJoin base pat) with
  | none => simp
  | some q => rw [hc] at h; simp at h

theorem any_filter_eq {α : Type} (l : List α) (f q : α → Bool)
    (h : ∀ x ∈ l, q x = false → f x = false) :
    (l.filter q).any f = l.any f := by
  induction l with
  | nil => rfl
  | cons a l ih =>
    have ih2 := ih (fun x hx hq => h x (List.mem_cons_of_mem _ hx) hq)
    rw [List.filter_cons]
    by_cases hq : q a = true
    · rw [if_pos hq, List.any_cons, List.any_cons, ih2]
    · have hqf : q a = false := by simpa using hq
      rw [if_neg (by simp [hqf]), List.any_cons, ih2,
        h a (List.mem_cons_self _ _) hqf]
      simp

/-- C4: a pattern the glob compiler rejects is a non-match and no error
escapes includes_path: the call equals the same query on the node with
every uncompilable pattern dropped, still returning a Boolean computed
from the remaining patterns. -/
theorem claim_C4_malformed_patterns (nd : Node) (p : String) :
    nd.includes_path p =
      Node.includes_path
        ⟨nd.name, nd.metadata, nd.path,
          nd.included_paths.filter
            (fun pat => (GlobPattern.new (pathJoin nd.path pat)).isSome),
          nd.excluded_paths.filter
            (fun pat => (GlobPattern.new (pathJoin nd.path pat)).isSome),
          nd.dependencies⟩ p := by
  unfold Node.includes_path
  simp only
  rw [any_filter_eq _ _ _
      (fun pat _ hq => pattern_compile_fail_no_match hq),
    any_filter_eq _ _ _
      (fun pat _ hq => pattern_compile_fail_no_match hq)]

instance exceptDecEq {ε α : Type} [DecidableEq ε] [DecidableEq α] :
    DecidableEq (Except ε α)
  | .ok a, .ok b =>
    if h : a = b then .isTrue (by rw [h]) else .isFalse (fun hc => h (Except.ok.inj hc))
  | .ok _, .error _ => .isFalse (fun hc => Except.noConfusion hc)
  | .error _, .ok _ => .isFalse (fun hc => Except.noConfusion hc)
  | .error e, .error f =>
    if h : e = f then .isTrue (by rw [h]) else .isFalse (fun hc => h (Except.error.inj hc))

/-- The reported vertex path being an actual cycle of the graph:
nonempty, consecutive entries joined by edges, and an edge from the last
entry back to the first. -/
def IsEdgeCycle (g : DependencyGraph) (p : List Nat) : Prop :=
  ∃ x t lastv, p = x :: t ∧ List.Chain' (fun a b => (a, b) ∈ g.edges) p ∧
    p.getLast? = some lastv ∧ (lastv, x) ∈ g.edges

/-- Node a depends on b; b depends on a; c depends on a. The only cycle
of this input is a <-> b. -/
def c3NodeA : Node := ⟨"a", none, "test/a", ["src/**"], [], ["b"]⟩

def c3NodeB : Node := ⟨"b", none, "test/b", ["src/**"], [], ["a"]⟩

def c3NodeC : Node := ⟨"c", none, "test/c", ["src/**"], [], ["a"]⟩

def c3Nodes : List Node := [c3NodeA, c3NodeB, c3NodeC]

/-- The graph the build produces on c3Nodes when cycles are allowed. -/
def c3Graph : DependencyGraph := ⟨c3Nodes, [(1, 0), (0, 1), (0, 2)], ntiOf c3Nodes⟩

/-- C3 counterexample: on this input the build fails with the chain
b -> a -> c closed at b, produced by walking newest-edge-first from the
blocking vertex b; but the walk dead-ends at c (vertex 2 has no outgoing
edge back to b), so the reported name chain is not an actual cycle of the
graph, refuting the claim that the reported chain is always a valid
witness cycle. -/
theorem claim_C3_counterexample :
    DependencyGraph.new c3Nodes false =
      .error (.circularDependency "b -> a -> c" "b") ∧
    DependencyGraph.new c3Nodes true = .ok c3Graph ∧
    toposort c3Graph = some (.error 1) ∧
    cycleWalkFrom c3Graph 1 = ([1, 0, 2], false) ∧
    [1, 0, 2].map c3Graph.nodeNameAt = ["b", "a", "c"] ∧
    ¬ IsEdgeCycle c3Graph [1, 0, 2] := by
  refine ⟨by decide, by decide, by decide, by decide, by decide, ?_⟩
  rintro ⟨x, t, lastv, hp, _, hlast, hedge⟩
  simp only [List.cons.injEq] at hp
  obtain ⟨hx, _⟩ := hp
  have h2 : (2 : Nat) = lastv := by simpa using hlast
  rw [← h2, ← hx] at hedge
  exact absurd hedge (by decide)

/-- C3 amended: with allow_cycles = false, a CircularDependency failure
reports the chain produced by the stated walk from the blocking vertex of
the ordering algorithm, joined by arrows, with the chain's first name as
the closing vertex; when the walk terminated because a vertex repeated,
the reported chain is an actual cycle of the graph. (The walk can instead
dead-end at a vertex with no outgoing edge, and then the reported chain
need not be a cycle.) -/
theorem claim_C3_cycle_walk {nodes : List Node} {s f : String}
    (h : DependencyGraph.new nodes false = .error (.circularDependency s f)) :
    ∃ g v, DependencyGraph.new nodes true = .ok g ∧
      toposort g = some (.error v) ∧
      s = String.intercalate " -> " ((cycleWalkFrom g v).1.map g.nodeNameAt) ∧
      f = ((cycleWalkFrom g v).1.map g.nodeNameAt).headD "" ∧
      ((cycleWalkFrom g v).2 = true → IsEdgeCycle g (cycleWalkFrom g v).1) := by
  unfold DependencyGraph.new at h
  cases hdup : firstDuplicate (nodes.map (·.name)) with
  | some n => rw [hdup] at h; cases h
  | none =>
    simp only [hdup] at h
    cases hbe : buildEdges (ntiOf nodes) (nodes.map (·.name)) (withIdx 0 nodes) with
    | error e =>
      simp only [hbe] at h
      obtain ⟨d, nm, ex, he⟩ := buildEdges_error_shape hbe
      rw [ex] at h
      cases h
    | ok es =>
      simp only [hbe] at h
      cases htopo : toposort (⟨nodes, es, ntiOf nodes⟩ : DependencyGraph) with
      | none =>
        simp only [htopo] at h
        exact Except.noConfusion h
      | some r =>
        cases r with
        | ok order =>
          simp only [htopo] at h
          exact Except.noConfusion h
        | error v =>
          simp only [htopo] at h
          have hce : cycleErrorOf (⟨nodes, es, ntiOf nodes⟩ : DependencyGraph) v =
              .circularDependency s f := Except.error.inj h
          simp only [cycleErrorOf] at hce
          refine ⟨⟨nodes, es, ntiOf nodes⟩, v, ?_, htopo, ?_, ?_, ?_⟩
          · unfold DependencyGraph.new
            simp only [hdup, hbe]
            simp
          · exact (DependencyGraphCreationError.circularDependency.inj hce).1.symm
          · exact (DependencyGraphCreationError.circularDependency.inj hce).2.symm
          · intro hb
            have hwalk : cycleWalk (⟨nodes, es, ntiOf nodes⟩ : DependencyGraph)
                (nodes.length + 1) v {v} [v] =
                ((cycleWalkFrom (⟨nodes, es, ntiOf nodes⟩ : DependencyGraph) v).1,
                  (cycleWalkFrom (⟨nodes, es, ntiOf nodes⟩ : DependencyGraph) v).2) :=
              Prod.mk.eta.symm
            rw [hb] at hwalk
            unfold IsEdgeCycle
            exact cycleWalk_true_cycle ⟨[], rfl⟩ (List.chain'_singleton v)
              (by simp) hwalk

/-- Node a depends on b; b depends on c; c depends on a: a genuine
three-cycle on which the walk terminates by revisiting b. -/
def c3wNodeA : Node := ⟨"a", none, "test/a", ["src/**"], [], ["b"]⟩

def c3wNodeB : Node := ⟨"b", none, "test/b", ["src/**"], [], ["c"]⟩

def c3wNodeC : Node := ⟨"c", none, "test/c", ["src/**"], [], ["a"]⟩

def c3wNodes : List Node := [c3wNodeA, c3wNodeB, c3wNodeC]

/-- Witness for the amended C3 at a concrete cyclic input. -/
theorem claim_C3_cycle_walk_witness :
    DependencyGraph.new c3wNodes false =
      .error (.circularDependency "b -> a -> c" "b") ∧
    (∃ g v, DependencyGraph.new c3wNodes true = .ok g ∧
      toposort g = some (.error v) ∧
      "b -> a -> c" = String.intercalate " -> " ((cycleWalkFrom g v).1.map g.nodeNameAt) ∧
      "b" = ((cycleWalkFrom g v).1.map g.nodeNameAt).headD "" ∧
      ((cycleWalkFrom g v).2 = true → IsEdgeCycle g (cycleWalkFrom g v).1)) :=
  ⟨by decide, claim_C3_cycle_walk (by decide)⟩

/-- C5: in every successfully built graph, get_dependents and
get_dependencies are inverse relations: for nodes A and B of the graph,
B lies downstream of A exactly when A lies upstream of B. -/
theorem claim_C5_updown_inverse {nodes : List Node} {allow : Bool} {g : DependencyGraph}
    (h : DependencyGraph.new nodes allow = .ok g) {a b : Node}
    (ha : a ∈ g.nodes) (hb : b ∈ g.nodes) :
    (b ∈ g.get_dependents a.name ↔ a ∈ g.get_dependencies b.name) := by
  obtain ⟨hgn, hnti, hnd, hbe, _⟩ := build_ok_elim h
  have hwf : WfGraph g := by
    intro e he
    rw [hgn]
    exact buildEdges_wf hnd hbe e he
  obtain ⟨ia, hgeta⟩ := List.mem_iff_getElem?.mp ha
  obtain ⟨ib, hgetb⟩ := List.mem_iff_getElem?.mp hb
  have hla : lookupName g.nameToIndex a.name = some ia := by
    rw [hnti]
    exact (lookupName_ntiOf_eq_some hnd).mpr ⟨a, by rw [← hgn]; exact hgeta, rfl⟩
  have hlb : lookupName g.nameToIndex b.name = some ib := by
    rw [hnti]
    exact (lookupName_ntiOf_eq_some hnd).mpr ⟨b, by rw [← hgn]; exact hgetb, rfl⟩
  rw [(get_dependents_char hwf hla) b, (get_dependencies_char hwf hlb) a]
  constructor
  · rintro ⟨i, hr, hget⟩
    have hi : i = ib := by
      have h1 : nodes[i]? = some b := by rw [← hgn]; exact hget
      have h2 : nodes[ib]? = some b := by rw [← hgn]; exact hgetb
      exact (nodup_name_inj hnd h1 h2 rfl).1
    exact ⟨ia, by rw [← hi]; exact hr, hgeta⟩
  · rintro ⟨j, hr, hget⟩
    have hj : j = ia := by
      have h1 : nodes[j]? = some a := by rw [← hgn]; exact hget
      have h2 : nodes[ia]? = some a := by rw [← hgn]; exact hgeta
      exact (nodup_name_inj hnd h1 h2 rfl).1
    exact ⟨ib, by rw [← hj]; exact hr, hgetb⟩

/-- Node a with no dependencies and node b depending on a. -/
def c5NodeA : Node := ⟨"a", none, "test/a", ["src/**"], [], []⟩

def c5NodeB : Node := ⟨"b", none, "test/b", ["src/**"], [], ["a"]⟩

def c5Nodes : List Node := [c5NodeA, c5NodeB]

def c5Graph : DependencyGraph := ⟨c5Nodes, [(0, 1)], ntiOf c5Nodes⟩

/-- Witness for C5 at a concrete two-node build. -/
theorem claim_C5_updown_inverse_witness :
    DependencyGraph.new c5Nodes false = .ok c5Graph ∧
    c5NodeA ∈ c5Graph.nodes ∧ c5NodeB ∈ c5Graph.nodes ∧
    (c5NodeB ∈ c5Graph.get_dependents c5NodeA.name ↔
      c5NodeA ∈ c5Graph.get_dependencies c5NodeB.name) :=
  ⟨by decide, by decide, by decide,
    @claim_C5_updown_inverse c5Nodes false c5Graph (by decide) c5NodeA c5NodeB
      (by decide) (by decide)⟩

/-- C10: in every graph successfully built without cycle tolerance, a
queried name never appears among the names of its own dependents or
dependencies: the start vertex could only re-enter its result set along
a cycle through itself, and the graph is acyclic. -/
theorem claim_C10_no_self_reach {nodes : List Node} {g : DependencyGraph}
    (h : DependencyGraph.new nodes false = .ok g) (s : String) :
    (∀ nd ∈ g.get_dependents s, nd.name ≠ s) ∧
    (∀ nd ∈ g.get_dependencies s, nd.name ≠ s) := by
  obtain ⟨hgn, hnti, hnd, hbe, hnotopo⟩ := build_ok_elim h
  have hwf : WfGraph g := by
    intro e he
    rw [hgn]
    exact buildEdges_wf hnd hbe e he
  have hacyc : ¬ Cyclic g := by
    obtain ⟨r, htopo⟩ := toposort_total hwf
    cases r with
    | error v => exact absurd htopo (hnotopo rfl v)
    | ok order => exact toposort_ok_acyclic hwf htopo
  cases hlook : lookupName g.nameToIndex s with
  | none =>
    constructor
    · intro nd hmem
      simp only [DependencyGraph.get_dependents, hlook, List.not_mem_nil] at hmem
    · intro nd hmem
      simp only [DependencyGraph.get_dependencies, hlook, List.not_mem_nil] at hmem
  | some k =>
    have hk : ∃ ndk, g.nodes[k]? = some ndk ∧ ndk.name = s := by
      rw [hnti] at hlook
      obtain ⟨ndk, hget, hname⟩ := (lookupName_ntiOf_eq_some hnd).mp hlook
      exact ⟨ndk, by rw [hgn]; exact hget, hname⟩
    obtain ⟨ndk, hgetk, hnamek⟩ := hk
    have hlook2 : lookupName g.nameToIndex s = some k := hlook
    constructor
    · intro nd hmem hname
      obtain ⟨i, hr, hget⟩ := ((get_dependents_char hwf hlook2) nd).mp hmem
      have hik : i = k := by
        have h1 : nodes[i]? = some nd := by rw [← hgn]; exact hget
        have h2 : nodes[k]? = some ndk := by rw [← hgn]; exact hgetk
        exact (nodup_name_inj hnd h1 h2 (by rw [hname, hnamek])).1
      rw [hik] at hr
      exact hacyc ⟨k, hr⟩
    · intro nd hmem hname
      obtain ⟨i, hr, hget⟩ := ((get_dependencies_char hwf hlook2) nd).mp hmem
      have hik : i = k := by
        have h1 : nodes[i]? = some nd := by rw [← hgn]; exact hget
        have h2 : nodes[k]? = some ndk := by rw [← hgn]; exact hgetk
        exact (nodup_name_inj hnd h1 h2 (by rw [hname, hnamek])).1
      rw [hik] at hr
      exact hacyc ⟨k, hr⟩

/-- Witness for C10 at a concrete two-node acyclic build. -/
theorem claim_C10_no_self_reach_witness :
    DependencyGraph.new c5Nodes false = .ok c5Graph ∧
    ((∀ nd ∈ c5Graph.get_dependents "a", nd.name ≠ "a") ∧
     (∀ nd ∈ c5Graph.get_dependencies "a", nd.name ≠ "a")) :=
  ⟨by decide, @claim_C10_no_self_reach c5Nodes c5Graph (by decide) "a"⟩

/-- C6: with pairwise distinct names, fully resolvable dependencies and
no directed dependency cycle, the build succeeds; get_node then returns
the declared node for every declared name and none for every undeclared
name. -/
theorem claim_C6_build_success {nodes : List Node}
    (hnd : (nodes.map (·.name)).Nodup)
    (hres : ∀ nd ∈ nodes, ∀ d ∈ nd.dependencies, ∃ nd2 ∈ nodes, nd2.name = d)
    (hacyc : ¬ ∃ i, Relation.TransGen (fun a b => inputDepB nodes a b = true) i i) :
    ∃ g, DependencyGraph.new nodes false = .ok g ∧
      (∀ nd ∈ nodes, g.get_node nd.name = some nd) ∧
      (∀ s, (∀ nd ∈ nodes, nd.name ≠ s) → g.get_node s = none) := by
  obtain ⟨g, hg⟩ := build_ok_false hnd hres hacyc
  obtain ⟨hgn, hnti, _, _, _⟩ := build_ok_elim hg
  refine ⟨g, hg, ?_, ?_⟩
  · intro nd hmem
    obtain ⟨k, hget⟩ := List.mem_iff_getElem?.mp hmem
    have hlk : lookupName g.nameToIndex nd.name = some k := by
      rw [hnti]
      exact (lookupName_ntiOf_eq_some hnd).mpr ⟨nd, hget, rfl⟩
    unfold DependencyGraph.get_node
    rw [hlk, Option.some_bind, hgn]
    exact hget
  · intro s hno
    have hlnone : lookupName g.nameToIndex s = none := by
      rw [hnti]
      exact lookupName_ntiOf_eq_none.mpr hno
    unfold DependencyGraph.get_node
    rw [hlnone]
    rfl

def c6Node : Node := ⟨"a", none, "p", ["i"], [], []⟩

def c6Nodes : List Node := [c6Node]

theorem c6_no_cycle :
    ¬ ∃ i, Relation.TransGen (fun a b => inputDepB c6Nodes a b = true) i i := by
  have hstep : ∀ a b : Nat, ¬ inputDepB c6Nodes a b = true := by
    intro a b hab
    obtain ⟨ndi, ndj, hgi, hgj, hm⟩ := inputDepB_eq_true.mp hab
    have hmem : ndj ∈ c6Nodes := mem_of_getElem?_some hgj
    have hj : ndj = c6Node := by simpa [c6Nodes] using hmem
    rw [hj] at hm
    simp [c6Node] at hm
  rintro ⟨i, hi⟩
  cases hi with
  | single h1 => exact hstep _ _ h1
  | tail _ h2 => exact hstep _ _ h2

/-- Witness for C6 at a concrete one-node input. -/
theorem claim_C6_build_success_witness :
    ((c6Nodes.map (·.name)).Nodup ∧
     (∀ nd ∈ c6Nodes, ∀ d ∈ nd.dependencies, ∃ nd2 ∈ c6Nodes, nd2.name = d)) ∧
    (∃ g, DependencyGraph.new c6Nodes false = .ok g ∧
      (∀ nd ∈ c6Nodes, g.get_node nd.name = some nd) ∧
      (∀ s, (∀ nd ∈ c6Nodes, nd.name ≠ s) → g.get_node s = none)) :=
  ⟨⟨by decide, by decide⟩,
    @claim_C6_build_success c6Nodes (by decide) (by decide) c6_no_cycle⟩

/-- C7: when scanning nodes in declaration order and each node's
dependencies in order, the first dependency name D that resolves to no
declared node makes the build fail with MissingDependency carrying D, the
referencing node's name, and the comma-joined listing of all declared
names; no graph is returned. -/
theorem claim_C7_missing_dependency {pre : List Node} {nd : Node} {post : List Node}
    {dpre : List String} {D : String} {dpost : List String} {allow : Bool}
    (hnd : (((pre ++ nd :: post).map (·.name))).Nodup)
    (hdeps : nd.dependencies = dpre ++ D :: dpost)
    (hpre : ∀ nd2 ∈ pre, ∀ d ∈ nd2.dependencies,
      ∃ nd3 ∈ pre ++ nd :: post, nd3.name = d)
    (hdpre : ∀ d ∈ dpre, ∃ nd3 ∈ pre ++ nd :: post, nd3.name = d)
    (hD : ∀ nd3 ∈ pre ++ nd :: post, nd3.name ≠ D) :
    DependencyGraph.new (pre ++ nd :: post) allow =
      .error (.missingDependency D nd.name
        (String.intercalate ", " ((pre ++ nd :: post).map (·.name)))) :=
  build_missing hnd hdeps hpre hdpre hD

def c7Node : Node := ⟨"a", none, "p", ["i"], [], ["missing"]⟩

/-- Witness for C7 at a concrete one-node input whose single dependency
is undeclared. -/
theorem claim_C7_missing_dependency_witness :
    (((([] : List Node) ++ c7Node :: []).map (·.name)).Nodup ∧
     c7Node.dependencies = [] ++ "missing" :: [] ∧
     (∀ nd2 ∈ ([] : List Node), ∀ d ∈ nd2.dependencies,
       ∃ nd3 ∈ ([] : List Node) ++ c7Node :: [], nd3.name = d) ∧
     (∀ d ∈ ([] : List String), ∃ nd3 ∈ ([] : List Node) ++ c7Node :: [], nd3.name = d) ∧
     (∀ nd3 ∈ ([] : List Node) ++ c7Node :: [], nd3.name ≠ "missing")) ∧
    DependencyGraph.new (([] : List Node) ++ c7Node :: []) false =
      .error (.missingDependency "missing" c7Node.name
        (String.intercalate ", " ((([] : List Node) ++ c7Node :: []).map (·.name)))) :=
  ⟨⟨by decide, by decide, by decide, by decide, by decide⟩,
    @claim_C7_missing_dependency [] c7Node [] [] "missing" [] false
      (by decide) (by decide) (by decide) (by decide) (by decide)⟩

def c8NodeA : Node := ⟨"a", none, "test/a", ["src/**"], [], ["c"]⟩

def c8NodeB : Node := ⟨"b", none, "test/b", ["src/**"], [], ["a"]⟩

def c8NodeC : Node := ⟨"c", none, "test/c", ["src/**"], [], ["b"]⟩

/-- A three-node cycle: b depends on a, c on b, a on c, so the edges run
a -> b -> c -> a. -/
def c8Nodes : List Node := [c8NodeA, c8NodeB, c8NodeC]

def c8Graph : DependencyGraph := ⟨c8Nodes, [(2, 0), (0, 1), (1, 2)], ntiOf c8Nodes⟩

/-- C8: a node list with unique names, resolvable dependencies and a
directed dependency cycle fails with CircularDependency when cycles are
rejected, while the same input with allow_cycles = true builds a graph
that keeps every declared node and exactly the declared dependency
edges; concretely, on the three-node cycle a -> b -> c -> a the tolerant
build succeeds and the dependents of a include b and c while the strict
build fails with CircularDependency. -/
theorem claim_C8_cycles {nodes : List Node}
    (hnd : (nodes.map (·.name)).Nodup)
    (hres : ∀ nd ∈ nodes, ∀ d ∈ nd.dependencies, ∃ nd2 ∈ nodes, nd2.name = d)
    (hcyc : ∃ i, Relation.TransGen (fun a b => inputDepB nodes a b = true) i i) :
    ((∃ s f, DependencyGraph.new nodes false = .error (.circularDependency s f)) ∧
     (∃ g, DependencyGraph.new nodes true = .ok g ∧ g.nodes = nodes ∧
       (∀ u w, ((u, w) ∈ g.edges ↔ inputDepB nodes u w = true)))) ∧
    (DependencyGraph.new c8Nodes true = .ok c8Graph ∧
     "b" ∈ (c8Graph.get_dependents "a").map (·.name) ∧
     "c" ∈ (c8Graph.get_dependents "a").map (·.name) ∧
     (∃ s2 f2, DependencyGraph.new c8Nodes false =
       .error (.circularDependency s2 f2))) := by
  refine ⟨⟨build_cyclic_err hnd hres hcyc, ?_⟩, by decide, by decide, by decide,
    "c -> a -> b", "c", by decide⟩
  obtain ⟨g, hg⟩ := build_ok_true hnd hres
  obtain ⟨hgn, _, _, hbe, _⟩ := build_ok_elim hg
  refine ⟨g, hg, hgn, ?_⟩
  intro u w
  exact build_edges_iff hnd hbe u w

theorem c8_cycle_exists :
    ∃ i, Relation.TransGen (fun a b => inputDepB c8Nodes a b = true) i i := by
  have h01 : inputDepB c8Nodes 0 1 = true := by decide
  have h12 : inputDepB c8Nodes 1 2 = true := by decide
  have h20 : inputDepB c8Nodes 2 0 = true := by decide
  exact ⟨0, Relation.TransGen.head h01 (Relation.TransGen.head h12
    (Relation.TransGen.single h20))⟩

/-- Witness for C8 at the concrete three-node cycle. -/
theorem claim_C8_cycles_witness :
    ((c8Nodes.map (·.name)).Nodup ∧
     (∀ nd ∈ c8Nodes, ∀ d ∈ nd.dependencies, ∃ nd2 ∈ c8Nodes, nd2.name = d)) ∧
    (((∃ s f, DependencyGraph.new c8Nodes false = .error (.circularDependency s f)) ∧
      (∃ g, DependencyGraph.new c8Nodes true = .ok g ∧ g.nodes = c8Nodes ∧
        (∀ u w, ((u, w) ∈ g.edges ↔ inputDepB c8Nodes u w = true)))) ∧
     (DependencyGraph.new c8Nodes true = .ok c8Graph ∧
      "b" ∈ (c8Graph.get_dependents "a").map (·.name) ∧
      "c" ∈ (c8Graph.get_dependents "a").map (·.name) ∧
      (∃ s2 f2, DependencyGraph.new c8Nodes false =
        .error (.circularDependency s2 f2)))) :=
  ⟨⟨by decide, by decide⟩,
    @claim_C8_cycles c8Nodes (by decide) (by decide) c8_cycle_exists⟩

/-- Outcome classifier of a build result: success, duplicate-name error,
missing-dependency error, circular-dependency error. -/
def buildVariant : Except DependencyGraphCreationError DependencyGraph → Nat
  | .ok _ => 0
  | .error (.duplicateNodeName _) => 1
  | .error (.missingDependency _ _ _) => 2
  | .error (.circularDependency _ _) => 3

def c9Node1 : Node := ⟨"a", none, "p", ["i"], [], ["x", "y"]⟩

def c9Node2 : Node := ⟨"a", none, "p", ["i"], [], ["y", "x"]⟩

/-- C9 counterexample: two single-node lists differing only in the order
of the node's dependencies list do not build identically: both fail with
MissingDependency, but the payloads name different dependencies, so the
build results differ although the dependency sets are equal. -/
theorem claim_C9_counterexample :
    c9Node1.name = c9Node2.name ∧ c9Node1.metadata = c9Node2.metadata ∧
    c9Node1.path = c9Node2.path ∧ c9Node1.included_paths = c9Node2.included_paths ∧
    c9Node1.excluded_paths = c9Node2.excluded_paths ∧
    c9Node1.dependencies.toFinset = c9Node2.dependencies.toFinset ∧
    DependencyGraph.new [c9Node1] false =
      .error (.missingDependency "x" "a" "a") ∧
    DependencyGraph.new [c9Node2] false =
      .error (.missingDependency "y" "a" "a") ∧
    DependencyGraph.new [c9Node1] false ≠ DependencyGraph.new [c9Node2] false := by
  refine ⟨rfl, rfl, rfl, rfl, rfl, by decide, by decide, by decide, by decide⟩

/-! Helper lemmas for the amended C9: lists differing only in one node's
dependency multiset. -/

theorem ntiOf_eq_of_names :
    ∀ {l1 l2 : List Node}, l1.map (·.name) = l2.map (·.name) →
      ∀ (k : Nat),
        (withIdx k l1).map (fun p => (p.2.name, p.1)) =
        (withIdx k l2).map (fun p => (p.2.name, p.1)) := by
  intro l1
  induction l1 with
  | nil =>
    intro l2 h k
    cases l2 with
    | nil => rfl
    | cons b l2 => cases h
  | cons a l1 ih =>
    intro l2 h k
    cases l2 with
    | nil => cases h
    | cons b l2 =>
      simp only [List.map_cons, List.cons.injEq] at h
      simp only [withIdx, List.map_cons, List.cons.injEq]
      exact ⟨by rw [h.1], ih h.2 (k + 1)⟩

theorem getElem?_append_mid {α : Type} (pre post : List α) (a : α) :
    (pre ++ a :: post)[pre.length]? = some a := by
  rw [List.getElem?_append_right (Nat.le_refl _)]
  simp

theorem getElem?_append_mid_ne {α : Type} {pre post : List α} {a b : α} {i : Nat}
    (h : i ≠ pre.length) :
    (pre ++ a :: post)[i]? = (pre ++ b :: post)[i]? := by
  rcases Nat.lt_or_ge i pre.length with hlt | hge
  · rw [List.getElem?_append_left hlt, List.getElem?_append_left hlt]
  · rw [List.getElem?_append_right hge, List.getElem?_append_right hge]
    have hd : i - pre.length = (i - pre.length - 1) + 1 := by omega
    rw [hd]
    simp

theorem forall_withIdx_iff {α : Type} {l : List α} {P : α → Prop} :
    (∀ p ∈ withIdx 0 l, P p.2) ↔ (∀ a ∈ l, P a) := by
  constructor
  · intro h a ha
    obtain ⟨k, hk⟩ := List.mem_iff_getElem?.mp ha
    exact h (k, a) (mem_withIdx.mpr ⟨k, by omega, hk⟩)
  · intro h p hp
    obtain ⟨j, hj, hget⟩ := mem_withIdx.mp hp
    exact h p.2 (mem_of_getElem?_some hget)

theorem inputDep_transfer {pre post : List Node} {nd1 nd2 : Node}
    (hf1 : nd1.name = nd2.name)
    (hmd : ∀ s, s ∈ nd1.dependencies → s ∈ nd2.dependencies) :
    ∀ u w, inputDepB (pre ++ nd1 :: post) u w = true →
      inputDepB (pre ++ nd2 :: post) u w = true := by
  intro u w h
  obtain ⟨ndi, ndj, hgi, hgj, hm⟩ := inputDepB_eq_true.mp h
  apply inputDepB_eq_true.mpr
  have hndi : ∃ ndi2, (pre ++ nd2 :: post)[u]? = some ndi2 ∧ ndi2.name = ndi.name := by
    by_cases hu : u = pre.length
    · subst hu
      rw [getElem?_append_mid] at hgi
      have he : nd1 = ndi := Option.some_inj.mp hgi
      exact ⟨nd2, getElem?_append_mid pre post nd2, by rw [← hf1, he]⟩
    · exact ⟨ndi, by rw [← getElem?_append_mid_ne hu]; exact hgi, rfl⟩
  have hndj : ∃ ndj2, (pre ++ nd2 :: post)[w]? = some ndj2 ∧
      ndi.name ∈ ndj2.dependencies := by
    by_cases hw : w = pre.length
    · subst hw
      rw [getElem?_append_mid] at hgj
      have he : nd1 = ndj := Option.some_inj.mp hgj
      refine ⟨nd2, getElem?_append_mid pre post nd2, ?_⟩
      apply hmd
      rw [he]
      exact hm
    · exact ⟨ndj, by rw [← getElem?_append_mid_ne hw]; exact hgj, hm⟩
  obtain ⟨ndi2, hgi2, hni⟩ := hndi
  obtain ⟨ndj2, hgj2, hmj⟩ := hndj
  exact ⟨ndi2, ndj2, hgi2, hgj2, by rw [hni]; exact hmj⟩

theorem c9_variant_eq {pre post : List Node} {nd1 nd2 : Node} {allow : Bool}
    (hf1 : nd1.name = nd2.name)
    (hdep : nd1.dependencies.toFinset = nd2.dependencies.toFinset) :
    buildVariant (DependencyGraph.new (pre ++ nd1 :: post) allow) =
      buildVariant (DependencyGraph.new (pre ++ nd2 :: post) allow) := by
  have hnames : (pre ++ nd1 :: post).map (·.name) = (pre ++ nd2 :: post).map (·.name) := by
    simp [hf1]
  have hnti : ntiOf (pre ++ nd1 :: post) = ntiOf (pre ++ nd2 :: post) :=
    ntiOf_eq_of_names hnames 0
  have hmd12 : ∀ s, s ∈ nd1.dependencies → s ∈ nd2.dependencies := by
    intro s hs
    have hm := List.mem_toFinset.mpr hs
    rw [hdep] at hm
    exact List.mem_toFinset.mp hm
  have hmd21 : ∀ s, s ∈ nd2.dependencies → s ∈ nd1.dependencies := by
    intro s hs
    have hm := List.mem_toFinset.mpr hs
    rw [← hdep] at hm
    exact List.mem_toFinset.mp hm
  have hfd : firstDuplicate ((pre ++ nd1 :: post).map (·.name)) =
      firstDuplicate ((pre ++ nd2 :: post).map (·.name)) := by rw [hnames]
  unfold DependencyGraph.new
  cases hdup : firstDuplicate ((pre ++ nd2 :: post).map (·.name)) with
  | some n => simp only [hfd, hdup]
  | none =>
    simp only [hfd, hdup]
    have hnd2 : ((pre ++ nd2 :: post).map (·.name)).Nodup := firstDuplicate_eq_none.mp hdup
    have hnd1 : ((pre ++ nd1 :: post).map (·.name)).Nodup := by
      rw [hnames]; exact hnd2
    have hok_iff :
        (∃ es, buildEdges (ntiOf (pre ++ nd1 :: post)) ((pre ++ nd1 :: post).map (·.name))
          (withIdx 0 (pre ++ nd1 :: post)) = .ok es) ↔
        (∃ es, buildEdges (ntiOf (pre ++ nd2 :: post)) ((pre ++ nd2 :: post).map (·.name))
          (withIdx 0 (pre ++ nd2 :: post)) = .ok es) := by
      have hcond : ∀ (l : List Node) (nti : List (String × Nat)),
          ((∀ p ∈ withIdx 0 l, ∀ d ∈ p.2.dependencies, lookupName nti d ≠ none) ↔
           (∀ a ∈ l, ∀ d ∈ a.dependencies, lookupName nti d ≠ none)) := by
        intro l nti
        constructor
        · intro h a ha d hd
          obtain ⟨k, hk⟩ := List.mem_iff_getElem?.mp ha
          exact h (k, a) (mem_withIdx.mpr ⟨k, by omega, hk⟩) d hd
        · intro h p hp d hd
          obtain ⟨j, hj, hget⟩ := mem_withIdx.mp hp
          exact h p.2 (mem_of_getElem?_some hget) d hd
      rw [buildEdges_ok_iff, buildEdges_ok_iff, hcond, hcond, hnti]
      constructor
      · intro h a ha d hd
        rcases List.mem_append.mp ha with hpre | hmid
        · exact h a (List.mem_append.mpr (Or.inl hpre)) d hd
        · rcases List.mem_cons.mp hmid with rfl | hpost
          · exact h nd1 (List.mem_append.mpr (Or.inr (List.mem_cons_self _ _))) d
              (hmd21 d hd)
          · exact h a (List.mem_append.mpr (Or.inr (List.mem_cons_of_mem _ hpost))) d hd
      · intro h a ha d hd
        rcases List.mem_append.mp ha with hpre | hmid
        · exact h a (List.mem_append.mpr (Or.inl hpre)) d hd
        · rcases List.mem_cons.mp hmid with rfl | hpost
          · exact h nd2 (List.mem_append.mpr (Or.inr (List.mem_cons_self _ _))) d
              (hmd12 d hd)
          · exact h a (List.mem_append.mpr (Or.inr (List.mem_cons_of_mem _ hpost))) d hd
    cases hbe1 : buildEdges (ntiOf (pre ++ nd1 :: post)) ((pre ++ nd1 :: post).map (·.name))
        (withIdx 0 (pre ++ nd1 :: post)) with
    | error e1 =>
      cases hbe2 : buildEdges (ntiOf (pre ++ nd2 :: post)) ((pre ++ nd2 :: post).map (·.name))
          (withIdx 0 (pre ++ nd2 :: post)) with
      | error e2 =>
        simp only [hbe1, hbe2]
        obtain ⟨d1, r1, he1, _⟩ := buildEdges_error_shape hbe1
        obtain ⟨d2, r2, he2, _⟩ := buildEdges_error_shape hbe2
        rw [he1, he2]
        rfl
      | ok es2 =>
        exfalso
        obtain ⟨es1, hes1⟩ := hok_iff.mpr ⟨es2, hbe2⟩
        rw [hbe1] at hes1
        cases hes1
    | ok es1 =>
      cases hbe2 : buildEdges (ntiOf (pre ++ nd2 :: post)) ((pre ++ nd2 :: post).map (·.name))
          (withIdx 0 (pre ++ nd2 :: post)) with
      | error e2 =>
        exfalso
        obtain ⟨es2, hes2⟩ := hok_iff.mp ⟨es1, hbe1⟩
        rw [hbe2] at hes2
        cases hes2
      | ok es2 =>
        simp only [hbe1, hbe2]
        cases allow with
        | true => rfl
        | false =>
          have hwf1 : WfGraph ⟨pre ++ nd1 :: post, es1, ntiOf (pre ++ nd1 :: post)⟩ :=
            buildEdges_wf hnd1 hbe1
          have hwf2 : WfGraph ⟨pre ++ nd2 :: post, es2, ntiOf (pre ++ nd2 :: post)⟩ :=
            buildEdges_wf hnd2 hbe2
          have hei1 := build_edges_iff hnd1 hbe1
          have hei2 := build_edges_iff hnd2 hbe2
          have hcyc12 : Cyclic ⟨pre ++ nd1 :: post, es1, ntiOf (pre ++ nd1 :: post)⟩ →
              Cyclic ⟨pre ++ nd2 :: post, es2, ntiOf (pre ++ nd2 :: post)⟩ := by
            rintro ⟨v, hv⟩
            refine ⟨v, Relation.TransGen.mono ?_ hv⟩
            intro a b hab
            exact (hei2 a b).mpr (inputDep_transfer hf1 hmd12 a b ((hei1 a b).mp hab))
          have hcyc21 : Cyclic ⟨pre ++ nd2 :: post, es2, ntiOf (pre ++ nd2 :: post)⟩ →
              Cyclic ⟨pre ++ nd1 :: post, es1, ntiOf (pre ++ nd1 :: post)⟩ := by
            rintro ⟨v, hv⟩
            refine ⟨v, Relation.TransGen.mono ?_ hv⟩
            intro a b hab
            exact (hei1 a b).mpr (inputDep_transfer hf1.symm hmd21 a b ((hei2 a b).mp hab))
          obtain ⟨r1, ht1⟩ := toposort_total hwf1
          obtain ⟨r2, ht2⟩ := toposort_total hwf2
          cases r1 with
          | error v1 =>
            cases r2 with
            | error v2 => simp only [ht1, ht2]; rfl
            | ok o2 =>
              exfalso
              exact toposort_ok_acyclic hwf2 ht2 (hcyc12 (toposort_err_cyclic ht1))
          | ok o1 =>
            cases r2 with
            | error v2 =>
              exfalso
              exact toposort_ok_acyclic hwf1 ht1 (hcyc21 (toposort_err_cyclic ht2))
            | ok o2 => simp only [ht1, ht2]; rfl

theorem c9_queries_eq {pre post : List Node} {nd1 nd2 : Node} {allow : Bool}
    {g1 g2 : DependencyGraph}
    (hf1 : nd1.name = nd2.name)
    (hdep : nd1.dependencies.toFinset = nd2.dependencies.toFinset)
    (hg1 : DependencyGraph.new (pre ++ nd1 :: post) allow = .ok g1)
    (hg2 : DependencyGraph.new (pre ++ nd2 :: post) allow = .ok g2) :
    ∀ s nm,
      ((∃ d ∈ g1.get_dependents s, d.name = nm) ↔
        (∃ d ∈ g2.get_dependents s, d.name = nm)) ∧
      ((∃ d ∈ g1.get_dependencies s, d.name = nm) ↔
        (∃ d ∈ g2.get_dependencies s, d.name = nm)) := by
  obtain ⟨hgn1, hnti1, hnd1, hbe1, _⟩ := build_ok_elim hg1
  obtain ⟨hgn2, hnti2, hnd2, hbe2, _⟩ := build_ok_elim hg2
  have hnames : (pre ++ nd1 :: post).map (·.name) = (pre ++ nd2 :: post).map (·.name) := by
    simp [hf1]
  have hnti : ntiOf (pre ++ nd1 :: post) = ntiOf (pre ++ nd2 :: post) :=
    ntiOf_eq_of_names hnames 0
  have hmd12 : ∀ s, s ∈ nd1.dependencies → s ∈ nd2.dependencies := by
    intro s hs
    have hm := List.mem_toFinset.mpr hs
    rw [hdep] at hm
    exact List.mem_toFinset.mp hm
  have hmd21 : ∀ s, s ∈ nd2.dependencies → s ∈ nd1.dependencies := by
    intro s hs
    have hm := List.mem_toFinset.mpr hs
    rw [← hdep] at hm
    exact List.mem_toFinset.mp hm
  have hwf1 : WfGraph g1 := by
    intro e he
    rw [hgn1]
    exact buildEdges_wf hnd1 hbe1 e he
  have hwf2 : WfGraph g2 := by
    intro e he
    rw [hgn2]
    exact buildEdges_wf hnd2 hbe2 e he
  have hei1 := build_edges_iff hnd1 hbe1
  have hei2 := build_edges_iff hnd2 hbe2
  have htg12 : ∀ a b, Relation.TransGen (edgeMem g1) a b →
      Relation.TransGen (edgeMem g2) a b := by
    intro a b h
    refine Relation.TransGen.mono ?_ h
    intro x y hxy
    exact (hei2 x y).mpr (inputDep_transfer hf1 hmd12 x y ((hei1 x y).mp hxy))
  have htg21 : ∀ a b, Relation.TransGen (edgeMem g2) a b →
      Relation.TransGen (edgeMem g1) a b := by
    intro a b h
    refine Relation.TransGen.mono ?_ h
    intro x y hxy
    exact (hei1 x y).mpr (inputDep_transfer hf1.symm hmd21 x y ((hei2 x y).mp hxy))
  have hnmAt : ∀ (i : Nat) (nm : String), (∃ d : Node, g1.nodes[i]? = some d ∧ d.name = nm) ↔
      (∃ d : Node, g2.nodes[i]? = some d ∧ d.name = nm) := by
    intro i nm
    rw [hgn1, hgn2]
    by_cases hi : i = pre.length
    · subst hi
      rw [getElem?_append_mid, getElem?_append_mid]
      constructor
      · rintro ⟨d, hd, hdn⟩
        obtain rfl := Option.some_inj.mp hd
        exact ⟨nd2, rfl, by rw [← hf1]; exact hdn⟩
      · rintro ⟨d, hd, hdn⟩
        obtain rfl := Option.some_inj.mp hd
        exact ⟨nd1, rfl, by rw [hf1]; exact hdn⟩
    · rw [@getElem?_append_mid_ne Node pre post nd1 nd2 i hi]
  intro s nm
  have hlookeq : lookupName g1.nameToIndex s = lookupName g2.nameToIndex s := by
    rw [hnti1, hnti2, hnti]
  cases hlk : lookupName g2.nameToIndex s with
  | none =>
    have hlk1 : lookupName g1.nameToIndex s = none := by rw [hlookeq, hlk]
    constructor
    · constructor
      · rintro ⟨d, hd, _⟩
        simp only [DependencyGraph.get_dependents, hlk1, List.not_mem_nil] at hd
      · rintro ⟨d, hd, _⟩
        simp only [DependencyGraph.get_dependents, hlk, List.not_mem_nil] at hd
    · constructor
      · rintro ⟨d, hd, _⟩
        simp only [DependencyGraph.get_dependencies, hlk1, List.not_mem_nil] at hd
      · rintro ⟨d, hd, _⟩
        simp only [DependencyGraph.get_dependencies, hlk, List.not_mem_nil] at hd
  | some k =>
    have hlk1 : lookupName g1.nameToIndex s = some k := by rw [hlookeq, hlk]
    constructor
    · constructor
      · rintro ⟨d, hd, hdn⟩
        obtain ⟨i, hr, hget⟩ := ((get_dependents_char hwf1 hlk1) d).mp hd
        obtain ⟨d2, hget2, hdn2⟩ := (hnmAt i nm).mp ⟨d, hget, hdn⟩
        exact ⟨d2, ((get_dependents_char hwf2 hlk) d2).mpr ⟨i, htg12 k i hr, hget2⟩, hdn2⟩
      · rintro ⟨d, hd, hdn⟩
        obtain ⟨i, hr, hget⟩ := ((get_dependents_char hwf2 hlk) d).mp hd
        obtain ⟨d2, hget2, hdn2⟩ := (hnmAt i nm).mpr ⟨d, hget, hdn⟩
        exact ⟨d2, ((get_dependents_char hwf1 hlk1) d2).mpr ⟨i, htg21 k i hr, hget2⟩, hdn2⟩
    · constructor
      · rintro ⟨d, hd, hdn⟩
        obtain ⟨i, hr, hget⟩ := ((get_dependencies_char hwf1 hlk1) d).mp hd
        obtain ⟨d2, hget2, hdn2⟩ := (hnmAt i nm).mp ⟨d, hget, hdn⟩
        exact ⟨d2, ((get_dependencies_char hwf2 hlk) d2).mpr ⟨i, htg12 i k hr, hget2⟩, hdn2⟩
      · rintro ⟨d, hd, hdn⟩
        obtain ⟨i, hr, hget⟩ := ((get_dependencies_char hwf2 hlk) d).mp hd
        obtain ⟨d2, hget2, hdn2⟩ := (hnmAt i nm).mpr ⟨d, hget, hdn⟩
        exact ⟨d2, ((get_dependencies_char hwf1 hlk1) d2).mpr ⟨i, htg21 i k hr, hget2⟩, hdn2⟩

theorem c9_affected_sub {pre post : List Node} {nd1 nd2 : Node}
    {g1 g2 : DependencyGraph}
    (hf1 : nd1.name = nd2.name) (hf3 : nd1.path = nd2.path)
    (hf4 : nd1.included_paths = nd2.included_paths)
    (hf5 : nd1.excluded_paths = nd2.excluded_paths)
    (hgn1 : g1.nodes = pre ++ nd1 :: post) (hgn2 : g2.nodes = pre ++ nd2 :: post)
    (hdeps : ∀ s x, (∃ d ∈ g1.get_dependents s, d.name = x) →
      (∃ d ∈ g2.get_dependents s, d.name = x))
    (changed : List String) (x : String)
    (hx : x ∈ g1.get_affected_nodes changed) : x ∈ g2.get_affected_nodes changed := by
  rw [get_affected_nodes_mem] at hx ⊢
  have hip : ∀ p, nd1.includes_path p = nd2.includes_path p := by
    intro p
    unfold Node.includes_path
    rw [hf3, hf4, hf5]
  obtain ⟨nd, hmem, howns, hrest⟩ := hx
  rw [hgn1] at hmem
  rcases List.mem_append.mp hmem with hpre | hmid
  · refine ⟨nd, by rw [hgn2]; exact List.mem_append.mpr (Or.inl hpre), howns, ?_⟩
    rcases hrest with h | hd
    · exact Or.inl h
    · exact Or.inr (hdeps nd.name x hd)
  · rcases List.mem_cons.mp hmid with rfl | hpost
    · refine ⟨nd2,
        by rw [hgn2]; exact List.mem_append.mpr (Or.inr (List.mem_cons_self _ _)), ?_, ?_⟩
      · obtain ⟨p, hp, hop⟩ := howns
        exact ⟨p, hp, by rw [← hip p]; exact hop⟩
      · rcases hrest with h | hd
        · exact Or.inl (by rw [← hf1]; exact h)
        · right
          have h2 := hdeps nd.name x hd
          rw [hf1] at h2
          exact h2
    · refine ⟨nd,
        by rw [hgn2]; exact List.mem_append.mpr (Or.inr (List.mem_cons_of_mem _ hpost)),
        howns, ?_⟩
      rcases hrest with h | hd
      · exact Or.inl h
      · exact Or.inr (hdeps nd.name x hd)

theorem c9_affected_eq {pre post : List Node} {nd1 nd2 : Node} {allow : Bool}
    {g1 g2 : DependencyGraph}
    (hf1 : nd1.name = nd2.name) (hf3 : nd1.path = nd2.path)
    (hf4 : nd1.included_paths = nd2.included_paths)
    (hf5 : nd1.excluded_paths = nd2.excluded_paths)
    (hdep : nd1.dependencies.toFinset = nd2.dependencies.toFinset)
    (hg1 : DependencyGraph.new (pre ++ nd1 :: post) allow = .ok g1)
    (hg2 : DependencyGraph.new (pre ++ nd2 :: post) allow = .ok g2) :
    ∀ changed, g1.get_affected_nodes changed = g2.get_affected_nodes changed := by
  intro changed
  obtain ⟨hgn1, _, _, _, _⟩ := build_ok_elim hg1
  obtain ⟨hgn2, _, _, _, _⟩ := build_ok_elim hg2
  have hq := c9_queries_eq hf1 hdep hg1 hg2
  apply Finset.ext
  intro x
  constructor
  · exact c9_affected_sub hf1 hf3 hf4 hf5 hgn1 hgn2
      (fun s y hy => ((hq s y).1).mp hy) changed x
  · exact c9_affected_sub hf1.symm hf3.symm hf4.symm hf5.symm hgn2 hgn1
      (fun s y hy => ((hq s y).1).mpr hy) changed x

/-- C9 amended: two node lists differing only in one node's dependencies
list, with equal dependency name sets, build to the same outcome kind
(success, or failure with the same error constructor, though error
payloads may differ in which missing name or cycle is reported); on
success, get_dependents, get_dependencies and get_affected_nodes agree
as sets of node names on every input. -/
theorem claim_C9_dependency_sets {pre post : List Node} {nd1 nd2 : Node} {allow : Bool}
    (hf1 : nd1.name = nd2.name) (hf2 : nd1.metadata = nd2.metadata)
    (hf3 : nd1.path = nd2.path) (hf4 : nd1.included_paths = nd2.included_paths)
    (hf5 : nd1.excluded_paths = nd2.excluded_paths)
    (hdep : nd1.dependencies.toFinset = nd2.dependencies.toFinset) :
    buildVariant (DependencyGraph.new (pre ++ nd1 :: post) allow) =
      buildVariant (DependencyGraph.new (pre ++ nd2 :: post) allow) ∧
    (∀ g1 g2, DependencyGraph.new (pre ++ nd1 :: post) allow = .ok g1 →
      DependencyGraph.new (pre ++ nd2 :: post) allow = .ok g2 →
      (∀ s nm,
        ((∃ d ∈ g1.get_dependents s, d.name = nm) ↔
          (∃ d ∈ g2.get_dependents s, d.name = nm)) ∧
        ((∃ d ∈ g1.get_dependencies s, d.name = nm) ↔
          (∃ d ∈ g2.get_dependencies s, d.name = nm))) ∧
      (∀ changed, g1.get_affected_nodes changed = g2.get_affected_nodes changed)) := by
  refine ⟨c9_variant_eq hf1 hdep, ?_⟩
  intro g1 g2 hg1 hg2
  exact ⟨c9_queries_eq hf1 hdep hg1 hg2,
    c9_affected_eq hf1 hf3 hf4 hf5 hdep hg1 hg2⟩

def c9wA : Node := ⟨"a", none, "pa", ["i"], [], []⟩

def c9w1 : Node := ⟨"b", none, "pb", ["i"], [], ["a", "a"]⟩

def c9w2 : Node := ⟨"b", none, "pb", ["i"], [], ["a"]⟩

/-- Witness for the amended C9 at a concrete pair of inputs differing
only by a duplicated dependency entry. -/
theorem claim_C9_dependency_sets_witness :
    (c9w1.name = c9w2.name ∧ c9w1.metadata = c9w2.metadata ∧
     c9w1.path = c9w2.path ∧ c9w1.included_paths = c9w2.included_paths ∧
     c9w1.excluded_paths = c9w2.excluded_paths ∧
     c9w1.dependencies.toFinset = c9w2.dependencies.toFinset) ∧
    (buildVariant (DependencyGraph.new ([] ++ c9w1 :: [c9wA]) false) =
       buildVariant (DependencyGraph.new ([] ++ c9w2 :: [c9wA]) false) ∧
     (∀ g1 g2, DependencyGraph.new ([] ++ c9w1 :: [c9wA]) false = .ok g1 →
       DependencyGraph.new ([] ++ c9w2 :: [c9wA]) false = .ok g2 →
       (∀ s nm,
         ((∃ d ∈ g1.get_dependents s, d.name = nm) ↔
           (∃ d ∈ g2.get_dependents s, d.name = nm)) ∧
         ((∃ d ∈ g1.get_dependencies s, d.name = nm) ↔
           (∃ d ∈ g2.get_dependencies s, d.name = nm))) ∧
       (∀ changed, g1.get_affected_nodes changed = g2.get_affected_nodes changed))) :=
  ⟨⟨rfl, rfl, rfl, rfl, rfl, by decide⟩,
    @claim_C9_dependency_sets [] [c9wA] c9w1 c9w2 false rfl rfl rfl rfl rfl (by decide)⟩
